import Mathlib

/-!
# gotailer: the fan-out pipeline

A shallow embedding of `server.go` (the subscriber registry and the subscribe
loop) and of `main.go` (`run` and its two line-reader goroutines), followed by
the properties of the specification that were checked against it.

Conventions of the embedding

* A `*subscriber` is a natural number (the address of the object); the objects
  themselves live in `gotailerServer.heap`.
* `map[*subscriber]struct{}` is the list of its keys.  Go ranges over a map in
  an unspecified order; the body of the loop of `publish` touches only the
  object it visits, so the result does not depend on that order
  (`publish_order_irrelevant`).
* A buffered channel is the list of the values it holds, oldest first, together
  with its capacity.
* `go s.closeSlow()` is counted in the field `closeSlow` of the subscriber.
* A `[]byte` is a window `(arr, off, len)` into a backing array, because
  `bufio.Scanner.Bytes` hands out windows into the buffer of the scanner.
-/

namespace Gotailer

/-! ## Data model -/

/-- One byte of child output.  The values are natural numbers; nothing below
depends on their being less than 256. -/
abbrev Byte := Nat

/-- The newline byte. -/
abbrev NL : Byte := 10

/-- The carriage return byte. -/
abbrev CR : Byte := 13

/-- A Go value of type `[]byte`: `len` bytes starting at offset `off` of the
backing array number `arr`. -/
structure ByteSlice where
  arr : Nat
  off : Nat
  len : Nat
  deriving DecidableEq

/-- The object behind a `*subscriber` (server.go 20-23).  `messages` and
`capacity` are the buffered channel `messages chan []byte`; `closeSlow` counts
the goroutines `go s.closeSlow()` spawned so far; `wire` is the sequence of
messages handed to `writeTimeout` by the subscribe loop. -/
structure subscriber where
  messages : List ByteSlice
  capacity : Nat
  closeSlow : Nat
  wire : List ByteSlice
  deriving DecidableEq

/-- The server of server.go 13-18 together with the subscriber objects it can
point to.  `nextPtr` is the address the next `&subscriber{...}` receives. -/
structure gotailerServer where
  messageBufferSize : Nat
  subscribers : List Nat
  heap : Nat → subscriber
  nextPtr : Nat

/-! ## server.go -/

/-- server.go 25-35: buffer size 256 and an empty map. -/
def newGotailerServer : gotailerServer :=
  { messageBufferSize := 256
    subscribers := []
    heap := fun _ => { messages := [], capacity := 0, closeSlow := 0, wire := [] }
    nextPtr := 0 }

/-- server.go 110-114: `server.subscribers[subscriber] = struct{}{}`. -/
def addSubscriber (server : gotailerServer) (s : Nat) : gotailerServer :=
  { server with
    subscribers := if s ∈ server.subscribers then server.subscribers
                   else s :: server.subscribers }

/-- server.go 116-120: `delete(server.subscribers, subscriber)`. -/
def removeSubscriber (server : gotailerServer) (s : Nat) : gotailerServer :=
  { server with subscribers := server.subscribers.erase s }

/-- server.go 102-106: the `select` with a `default` branch, on one subscriber
object.  The send succeeds when the channel has room; otherwise
`go s.closeSlow()` runs. -/
def trySend (message : ByteSlice) (sub : subscriber) : subscriber :=
  if sub.messages.length < sub.capacity then
    { sub with messages := sub.messages ++ [message] }
  else
    { sub with closeSlow := sub.closeSlow + 1 }

/-- The body of the range loop of `publish` for the key `s`. -/
def publishStep (message : ByteSlice) (server : gotailerServer) (s : Nat) :
    gotailerServer :=
  { server with heap := Function.update server.heap s (trySend message (server.heap s)) }

/-- The range loop of `publish` visiting the keys in the order `order`. -/
def publishOver (order : List Nat) (server : gotailerServer) (message : ByteSlice) :
    gotailerServer :=
  order.foldl (publishStep message) server

/-- server.go 97-108. -/
def publish (server : gotailerServer) (message : ByteSlice) : gotailerServer :=
  publishOver server.subscribers server message

/-- server.go 69-76: `subscribe` allocates the subscriber with a channel of
capacity `server.messageBufferSize` and registers it. -/
def subscribeEnter (server : gotailerServer) : gotailerServer :=
  addSubscriber
    { server with
      heap := Function.update server.heap server.nextPtr
        { messages := [], capacity := server.messageBufferSize, closeSlow := 0, wire := [] }
      nextPtr := server.nextPtr + 1 }
    server.nextPtr

/-- server.go 86-90: one turn of the subscribe loop of the registered
subscriber `s` in which a message is available and the write succeeds.  With an
empty channel the receive is not enabled and nothing happens. -/
def subscribeRecv (server : gotailerServer) (s : Nat) : gotailerServer :=
  if s ∈ server.subscribers then
    match (server.heap s).messages with
    | [] => server
    | m :: rest =>
      { server with
        heap := Function.update server.heap s
          { server.heap s with messages := rest, wire := (server.heap s).wire ++ [m] } }
  else server

/-- The operations that change the registry or a subscriber queue. -/
inductive Op where
  | connect : Op
  | disconnect : Nat → Op
  | publish : ByteSlice → Op
  | recv : Nat → Op
  deriving DecidableEq

/-- The effect of one operation. -/
def step (server : gotailerServer) : Op → gotailerServer
  | .connect => subscribeEnter server
  | .disconnect s => removeSubscriber server s
  | .publish m => publish server m
  | .recv s => subscribeRecv server s

/-- The effect of a sequence of operations. -/
def runOps (server : gotailerServer) (ops : List Op) : gotailerServer :=
  ops.foldl step server

/-- The states the server can be in: those a sequence of operations produces
from `newGotailerServer`. -/
def Reachable (server : gotailerServer) : Prop :=
  ∃ ops, runOps newGotailerServer ops = server

/-- The messages published by a sequence of operations, in order. -/
def published : List Op → List ByteSlice
  | [] => []
  | .publish m :: ops => m :: published ops
  | _ :: ops => published ops

/-- Whether an operation is a receive or a disconnect of subscriber `s`. -/
def Op.touches (s : Nat) : Op → Bool
  | .disconnect p => p == s
  | .recv p => p == s
  | _ => false

/-- Whether an operation is a disconnect of subscriber `s`. -/
def Op.removes (s : Nat) : Op → Bool
  | .disconnect p => p == s
  | _ => false

/-- Subscriber `s` has room in its queue at every publish of the run. -/
def roomAtEveryPublish (s : Nat) : gotailerServer → List Op → Prop
  | _, [] => True
  | server, op :: ops =>
    (match op with
      | .publish _ => (server.heap s).messages.length < (server.heap s).capacity
      | _ => True) ∧ roomAtEveryPublish s (step server op) ops

/-- The state in which one subscriber has connected and 256 messages have been
published without any receive: the queue of subscriber 0 is full. -/
def fullQueueState : gotailerServer :=
  runOps (subscribeEnter newGotailerServer) (List.replicate 256 (Op.publish ⟨0, 0, 1⟩))

/-- The invariant of the reachable states. -/
structure WF (server : gotailerServer) : Prop where
  size : server.messageBufferSize = 256
  nodup : server.subscribers.Nodup
  alloc : ∀ s ∈ server.subscribers, s < server.nextPtr
  cap : ∀ p, p < server.nextPtr → (server.heap p).capacity = 256
  bound : ∀ p, (server.heap p).messages.length ≤ 256

/-! ## bufio.Scanner

`main.go` reads each output stream of the child with `bufio.NewScanner` and
`scanner.Scan()` / `scanner.Bytes()`.  The scanner is part of the Go standard
library (`bufio/scan.go`); what follows is that code, restricted to what
`NewScanner` configures: the split function is `ScanLines`, which returns
neither an error nor a token without advancing, so the `done` flag and the
`empties` counter of the original never change and are left out.  The reader is
the read end of a pipe: a sequence of pending chunks, then end of file.  A read
error other than end of file is treated by `Scan` exactly as end of file is.
-/

/-- The errors a scanner can record. -/
inductive ScanErr where
  | EOF : ScanErr
  | ErrTooLong : ScanErr
  | ErrAdvanceTooFar : ScanErr
  | ErrBadReadCount : ScanErr
  | ErrNoProgress : ScanErr
  deriving DecidableEq

/-- The constant `bufio.MaxScanTokenSize`. -/
def MaxScanTokenSize : Nat := 64 * 1024

/-- The constant `startBufSize` of `bufio/scan.go`. -/
def startBufSize : Nat := 4096

/-- The constant `maxConsecutiveEmptyReads` of `bufio`. -/
def maxConsecutiveEmptyReads : Nat := 100

/-- The largest `int` of a 64-bit platform. -/
def maxInt : Nat := 2 ^ 63 - 1

/-- The state of a `bufio.Scanner`.  `buf` is the content of the backing array
that `s.buf` currently points to; `retired` holds the contents of the backing
arrays it pointed to before (array number `i` is `retired[i]`, the current array
has number `retired.length`).  `end_` is the field `end`. -/
structure Scanner where
  r : List (List Byte)
  maxTokenSize : Nat
  token : Option ByteSlice
  buf : List Byte
  start : Nat
  end_ : Nat
  err : Option ScanErr
  retired : List (List Byte)

/-- The slice `s.buf[s.start:s.end]`: the buffered bytes that `Scan` has not
consumed yet. -/
def window (s : Scanner) : List Byte :=
  (s.buf.drop s.start).take (s.end_ - s.start)

/-- The function `bufio.NewScanner`. -/
def NewScanner (r : List (List Byte)) : Scanner :=
  { r := r, maxTokenSize := MaxScanTokenSize, token := none, buf := [], start := 0, end_ := 0,
    err := none, retired := [] }

/-- The function `bytes.IndexByte`: the index of the first `c` in `data`, `none`
for the result -1. -/
def IndexByte : List Byte → Byte → Option Nat
  | [], _ => none
  | b :: rest, c => if b = c then some 0 else (IndexByte rest c).map (· + 1)

/-- The function `dropCR` of `bufio/scan.go`: drop one final carriage return. -/
def dropCR (data : List Byte) : List Byte :=
  if data.getLast? = some CR then data.dropLast else data

/-- The function `bufio.ScanLines`.  The token it returns is a window of `data`
that starts at offset 0, so the result is the advance and the length of the
token (`none` for a nil token); its error result is always nil. -/
def ScanLines (data : List Byte) (atEOF : Bool) : Nat × Option Nat :=
  if atEOF ∧ data.length = 0 then (0, none)
  else
    match IndexByte data NL with
    | some i => (i + 1, some (dropCR (data.take i)).length)
    | none => if atEOF then (data.length, some (dropCR data).length) else (0, none)

/-- The method `Scanner.setErr`. -/
def setErr (s : Scanner) (e : ScanErr) : Scanner :=
  if s.err = none ∨ s.err = some ScanErr.EOF then { s with err := some e } else s

/-- The builtin `copy(dst, src)`: the new content of `dst`. -/
def copy (dst src : List Byte) : List Byte :=
  src.take dst.length ++ dst.drop src.length

/-- The call `r.Read(p)` on the pipe `r` with `len(p) = room`: the bytes
delivered, the error, and the pipe afterwards. -/
def Read (r : List (List Byte)) (room : Nat) :
    List Byte × Option ScanErr × List (List Byte) :=
  match r with
  | [] => ([], some ScanErr.EOF, [])
  | c :: rest =>
    if c.length ≤ room then (c, none, rest) else (c.take room, none, c.drop room :: rest)

/-- The effect on the scanner of a read that stored `data` at `s.buf[s.end:]`
and left the pipe as `r1`, followed by `s.end += n`. -/
def fill (s : Scanner) (data : List Byte) (r1 : List (List Byte)) : Scanner :=
  { s with
    r := r1
    buf := s.buf.take s.end_ ++ copy (s.buf.drop s.end_) data
    end_ := s.end_ + data.length }

/-- One turn of the read loop at the end of the body of `Scan`, up to the test
`n > 0`: the scanner afterwards, and whether the read was empty and without
error (the loop then goes on to count it). -/
def readOnce (s : Scanner) : Scanner × Bool :=
  match Read s.r (s.buf.length - s.end_) with
  | (data, err, r1) =>
    if s.buf.length - s.end_ < data.length then
      (setErr { s with r := r1 } ScanErr.ErrBadReadCount, false)
    else
      match err with
      | some e => (setErr (fill s data r1) e, false)
      | none => (fill s data r1, decide (data.length = 0))

/-- The read loop at the end of the body of `Scan`.  The first argument is
`maxConsecutiveEmptyReads - loop`. -/
def readLoop : Nat → Scanner → Scanner
  | 0, s =>
    match readOnce s with
    | (s1, true) => setErr s1 ScanErr.ErrNoProgress
    | (s1, false) => s1
  | budget + 1, s =>
    match readOnce s with
    | (s1, true) => readLoop budget s1
    | (s1, false) => s1

/-- The step "shift data to beginning of buffer" of `Scan`. -/
def shift (s : Scanner) : Scanner :=
  if 0 < s.start ∧ (s.end_ = s.buf.length ∨ s.buf.length / 2 < s.start) then
    { s with
      buf := copy s.buf (window s)
      end_ := s.end_ - s.start
      start := 0 }
  else s

/-- The step "resize" of `Scan` once the size check has passed: a new backing
array is allocated and the old one is retired. -/
def grow (s : Scanner) : Scanner :=
  let newSize := if s.buf.length * 2 = 0 then startBufSize else s.buf.length * 2
  let newSize := min newSize s.maxTokenSize
  { s with
    buf := copy (List.replicate newSize 0) (window s)
    retired := s.retired ++ [s.buf]
    end_ := s.end_ - s.start
    start := 0 }

/-- The outcome of one turn of the loop of `Scan`. -/
inductive ScanTurn where
  | ret : Bool → Scanner → ScanTurn
  | again : Scanner → ScanTurn

/-- The second half of the body of the loop of `Scan`, from "We cannot generate
a token with what we are holding". -/
def scanRefill (s : Scanner) : ScanTurn :=
  if s.err ≠ none then ScanTurn.ret false { s with start := 0, end_ := 0 }
  else
    let s1 := shift s
    if s1.end_ = s1.buf.length then
      if s1.maxTokenSize ≤ s1.buf.length ∨ maxInt / 2 < s1.buf.length then
        ScanTurn.ret false (setErr s1 ScanErr.ErrTooLong)
      else ScanTurn.again (readLoop maxConsecutiveEmptyReads (grow s1))
    else ScanTurn.again (readLoop maxConsecutiveEmptyReads s1)

/-- The first half of the body of the loop of `Scan` after the split function
has returned `advance` and a token of `tok` bytes (`none` for a nil token). -/
def afterSplit (s : Scanner) (advance : Nat) (tok : Option Nat) : ScanTurn :=
  if s.end_ - s.start < advance then
    ScanTurn.ret false (setErr s ScanErr.ErrAdvanceTooFar)
  else
    let s1 : Scanner :=
      { s with
        start := s.start + advance
        token := tok.map (fun k => { arr := s.retired.length, off := s.start, len := k }) }
    if tok.isSome then ScanTurn.ret true s1 else scanRefill s1

/-- One turn of the loop of `Scan`. -/
def scanTurn (s : Scanner) : ScanTurn :=
  if s.start < s.end_ ∨ s.err ≠ none then
    match ScanLines (window s) (decide (s.err ≠ none)) with
    | (advance, tok) => afterSplit s advance tok
  else scanRefill s

/-- The loop of `Scan`, with a bound on the number of turns; `none` when the
bound is reached. -/
def scanLoop : Nat → Scanner → Option (Bool × Scanner)
  | 0, _ => none
  | fuel + 1, s =>
    match scanTurn s with
    | ScanTurn.ret ok s1 => some (ok, s1)
    | ScanTurn.again s1 => scanLoop fuel s1

/-- The number of bytes still in the pipe. -/
def pendingInput (s : Scanner) : Nat := s.r.flatten.length

/-- The method `Scanner.Scan`.  Every turn that does not return has read at
least one byte or recorded an error, so `pendingInput s + 2` turns are enough
(`Scan_spec`). -/
def Scan (s : Scanner) : Option (Bool × Scanner) :=
  scanLoop (pendingInput s + 2) s

/-- The method `Scanner.Bytes`: the token of the last `Scan`, the nil slice
when there is none. -/
def Bytes (s : Scanner) : ByteSlice :=
  s.token.getD { arr := 0, off := 0, len := 0 }

/-- The content of backing array number `i` in the memory of scanner `s`. -/
def Scanner.array (s : Scanner) (i : Nat) : List Byte :=
  if i < s.retired.length then s.retired.getD i [] else s.buf

/-- The bytes a slice denotes in the memory of scanner `s`. -/
def Scanner.bytesOf (s : Scanner) (b : ByteSlice) : List Byte :=
  ((s.array b.arr).drop b.off).take b.len

/-! ## main.go -/

/-- main.go 56-61 (and 64-69): `for scanner.Scan() { gotailer.publish(scanner.Bytes()) }`.
The result is the scanner and the server when the loop ends, and the bytes each
published message denoted at the time it was published.  The first argument
bounds the number of turns; `none` when the bound is reached. -/
def scannerGoroutine : Nat → Scanner → gotailerServer →
    Option (Scanner × gotailerServer × List (List Byte))
  | 0, _, _ => none
  | fuel + 1, s, server =>
    match Scan s with
    | none => none
    | some (false, s1) => some (s1, server, [])
    | some (true, s1) =>
      match scannerGoroutine fuel s1 (publish server (Bytes s1)) with
      | none => none
      | some (s2, server2, log) => some (s2, server2, s1.bytesOf (Bytes s1) :: log)

/-- The bytes the scanner has buffered and not yet consumed, followed by the
bytes still in the pipe. -/
def unread (s : Scanner) : List Byte :=
  window s ++ s.r.flatten

/-- A line reader of `run` on the pipe `r`: the goroutine with a fresh scanner.
Every turn consumes at least one byte, so `r.flatten.length + 1` turns are
enough. -/
def lineReader (r : List (List Byte)) (server : gotailerServer) :
    Option (Scanner × gotailerServer × List (List Byte)) :=
  scannerGoroutine (r.flatten.length + 1) (NewScanner r) server

/-- The results of the calls that `run` makes to the operating system: for
each call the text of the error it returns, `none` for a nil error. -/
structure Env where
  stdoutPipe : Option String
  stderrPipe : Option String
  listen : Option String
  start : Option String
  shutdown : Option String

/-- The calls and goroutines of `run` that act on the outside world. -/
inductive Event where
  | stdoutPipe : Event
  | stderrPipe : Event
  | netListen : Event
  | goStdoutScanner : Event
  | goStderrScanner : Event
  | cmdStart : Event
  | goServe : Event
  | signalNotify : Event
  | goWait : Event
  | selectTrigger : Event
  | shutdown : Event
  deriving DecidableEq

/-- main.go 28-112: the calls `run` makes, in program order, and the error it
returns (`none` for nil).  `netListen` is the call `net.Listen("tcp", ...)` of
line 42, `cmdStart` the call `cmd.Start()` of line 72, `goServe` the goroutine
of line 80 that runs `httpServer.Serve(listen)`. -/
def run (env : Env) : List Event × Option String :=
  match env.stdoutPipe with
  | some e => ([Event.stdoutPipe], some ("error creating stdout pipe: " ++ e))
  | none =>
    match env.stderrPipe with
    | some e =>
      ([Event.stdoutPipe, Event.stderrPipe], some ("error creating stderr pipe: " ++ e))
    | none =>
      match env.listen with
      | some e =>
        ([Event.stdoutPipe, Event.stderrPipe, Event.netListen],
          some ("error creating listening socket: " ++ e))
      | none =>
        match env.start with
        | some e =>
          ([Event.stdoutPipe, Event.stderrPipe, Event.netListen, Event.goStdoutScanner,
            Event.goStderrScanner, Event.cmdStart],
            some ("error starting command: " ++ e))
        | none =>
          ([Event.stdoutPipe, Event.stderrPipe, Event.netListen, Event.goStdoutScanner,
            Event.goStderrScanner, Event.cmdStart, Event.goServe, Event.signalNotify,
            Event.goWait, Event.selectTrigger, Event.shutdown],
            env.shutdown)

/-- A run in which both pipes and the listening socket are created and the
child cannot be launched. -/
def launchFails : Env :=
  { stdoutPipe := none, stderrPipe := none, listen := none,
    start := some "fork/exec ./missing: no such file or directory", shutdown := none }

/-- A run in which the stderr pipe cannot be created. -/
def pipeFails : Env :=
  { stdoutPipe := none, stderrPipe := some "too many open files", listen := none,
    start := none, shutdown := none }

/-! ## Reference functions for the line readers -/

/-- The first token `ScanLines` cuts from the unread bytes `u` of a stream and
the bytes left after it, when the buffer may grow to `M` bytes: the bytes up to
the first newline, or all of `u` when it holds no newline, without one final
carriage return; `none` when `u` is empty or that line has `M` bytes or more. -/
def nextToken (M : Nat) (u : List Byte) : Option (List Byte × List Byte) :=
  match IndexByte u NL with
  | some i => if i < M then some (dropCR (u.take i), u.drop (i + 1)) else none
  | none => if u = [] then none else if u.length < M then some (dropCR u, []) else none

/-- The tokens of a stream whose current line starts with `acc`: the stream is
cut at every newline, a final piece without newline counts when it is not
empty, each piece loses one final carriage return, and the first piece of `M`
bytes or more ends the list. -/
def tokensFrom (M : Nat) : List Byte → List Byte → List (List Byte)
  | acc, [] => if acc = [] then [] else if acc.length < M then [dropCR acc] else []
  | acc, b :: rest =>
    if b = NL then
      if acc.length < M then dropCR acc :: tokensFrom M [] rest else []
    else tokensFrom M (acc ++ [b]) rest

/-- The reading of a stream in the specification: its newline-terminated
chunks, in order, each without its newline.  Bytes after the last newline are
not a chunk.  `acc` is the part of the current chunk already seen. -/
def specChunks : List Byte → List Byte → List (List Byte)
  | _, [] => []
  | acc, b :: rest =>
    if b = NL then acc :: specChunks [] rest else specChunks (acc ++ [b]) rest

/-- The lines published by a line reader, when it ends. -/
def publishedLines (r : List (List Byte)) (server : gotailerServer) :
    Option (List (List Byte)) :=
  (lineReader r server).map (fun x => x.2.2)

/-- A pipe that delivers a line of 2049 bytes `a` and then the line `b`. -/
def twoLinePipe : List (List Byte) :=
  [List.replicate 2049 97 ++ [NL], [98, NL]]

/-- What the one subscriber of the server finds when it dequeues its first
message after the line reader on `r` has ended: the bytes the message denotes
at that time, in the memory of the scanner. -/
def firstDequeued (r : List (List Byte)) : Option (List (List Byte)) :=
  (lineReader r (subscribeEnter newGotailerServer)).map
    (fun x => ((subscribeRecv x.2.1 0).heap 0).wire.map x.1.bytesOf)

/-- The stream made of the lines `ls`, each followed by a newline, and then of
the bytes `last`. -/
def joinLines (ls : List (List Byte)) (last : List Byte) : List Byte :=
  (ls.map (· ++ [NL])).flatten ++ last

/-- The invariant of the scanner between two calls of `Scan` in a line reader:
the window `start..end_` lies in the buffer, the buffer is no longer than
`maxTokenSize`, the only error recorded is the end of file, seen on an empty
pipe by a read into free space, and the pipe never delivers an empty chunk. -/
structure ScanInv (s : Scanner) : Prop where
  start_le : s.start ≤ s.end_
  end_le : s.end_ ≤ s.buf.length
  len_le : s.buf.length ≤ s.maxTokenSize
  max_le : s.maxTokenSize ≤ maxInt / 2
  err_ok : s.err = none ∨ (s.err = some ScanErr.EOF ∧ s.r = [] ∧ s.end_ < s.buf.length)
  chunks : ∀ c ∈ s.r, c ≠ []

/-- The number of turns of the loop of `Scan` still possible: the bytes in the
pipe, and one more as long as no error is recorded. -/
def turnsLeft (s : Scanner) : Nat :=
  s.r.flatten.length + (if s.err = none then 1 else 0)

/-- A turn of the loop of `Scan` that does not return keeps the invariant and
the unread bytes, and uses up one of the turns left. -/
def Progress (s s1 : Scanner) : Prop :=
  ScanInv s1 ∧ unread s1 = unread s ∧ s1.maxTokenSize = s.maxTokenSize ∧
    turnsLeft s1 < turnsLeft s

/-- What a call of `Scan` that starts in `s` and ends in `s1` with result `ok`
has to achieve. -/
def ScanPost (s : Scanner) (ok : Bool) (s1 : Scanner) : Prop :=
  match nextToken s.maxTokenSize (unread s) with
  | some (t, rest) =>
    ok = true ∧ s1.bytesOf (Bytes s1) = t ∧ unread s1 = rest ∧ ScanInv s1 ∧
      s1.maxTokenSize = s.maxTokenSize
  | none => ok = false

/-! ## Registry lemmas -/

theorem foldl_publishStep_subscribers (m : ByteSlice) (l : List Nat) (server : gotailerServer) :
    (l.foldl (publishStep m) server).subscribers = server.subscribers ∧
    (l.foldl (publishStep m) server).nextPtr = server.nextPtr ∧
    (l.foldl (publishStep m) server).messageBufferSize = server.messageBufferSize := by
  induction l generalizing server with
  | nil => simp
  | cons a l ih =>
    simp only [List.foldl_cons]
    obtain ⟨h1, h2, h3⟩ := ih (publishStep m server a)
    exact ⟨h1, h2, h3⟩

theorem foldl_publishStep_heap (m : ByteSlice) (l : List Nat) (hl : l.Nodup)
    (server : gotailerServer) (p : Nat) :
    (l.foldl (publishStep m) server).heap p =
      if p ∈ l then trySend m (server.heap p) else server.heap p := by
  induction l generalizing server with
  | nil => simp
  | cons a l ih =>
    simp only [List.foldl_cons]
    have hnd := List.nodup_cons.mp hl
    rw [ih hnd.2]
    by_cases hpa : p = a
    · subst hpa
      simp [hnd.1, publishStep]
    · by_cases hpl : p ∈ l
      · simp [hpl, hpa, publishStep, Function.update_noteq hpa]
      · simp [hpl, hpa, publishStep, Function.update_noteq hpa]

theorem publish_subscribers (server : gotailerServer) (m : ByteSlice) :
    (publish server m).subscribers = server.subscribers :=
  (foldl_publishStep_subscribers m _ server).1

theorem publish_nextPtr (server : gotailerServer) (m : ByteSlice) :
    (publish server m).nextPtr = server.nextPtr :=
  (foldl_publishStep_subscribers m _ server).2.1

theorem publish_messageBufferSize (server : gotailerServer) (m : ByteSlice) :
    (publish server m).messageBufferSize = server.messageBufferSize :=
  (foldl_publishStep_subscribers m _ server).2.2

theorem publish_heap (server : gotailerServer) (hnd : server.subscribers.Nodup)
    (m : ByteSlice) (p : Nat) :
    (publish server m).heap p =
      if p ∈ server.subscribers then trySend m (server.heap p) else server.heap p :=
  foldl_publishStep_heap m _ hnd server p

theorem trySend_capacity (m : ByteSlice) (sub : subscriber) :
    (trySend m sub).capacity = sub.capacity := by
  unfold trySend
  split <;> rfl

theorem trySend_wire (m : ByteSlice) (sub : subscriber) :
    (trySend m sub).wire = sub.wire := by
  unfold trySend
  split <;> rfl

theorem trySend_room (m : ByteSlice) (sub : subscriber)
    (h : sub.messages.length < sub.capacity) :
    trySend m sub = { sub with messages := sub.messages ++ [m] } := by
  simp [trySend, h]

theorem trySend_full (m : ByteSlice) (sub : subscriber)
    (h : ¬ sub.messages.length < sub.capacity) :
    trySend m sub = { sub with closeSlow := sub.closeSlow + 1 } := by
  simp [trySend, h]

/-- The order in which the range loop of `publish` visits the keys does not
matter: any two duplicate-free orders of the same keys give the same heap. -/
theorem publish_order_irrelevant (server : gotailerServer) (m : ByteSlice)
    (o₁ o₂ : List Nat) (h₁ : o₁.Nodup) (h₂ : o₂.Nodup) (hp : o₁.Perm o₂) (p : Nat) :
    (publishOver o₁ server m).heap p = (publishOver o₂ server m).heap p := by
  unfold publishOver
  rw [foldl_publishStep_heap m o₁ h₁, foldl_publishStep_heap m o₂ h₂]
  simp [hp.mem_iff]

theorem subscribeRecv_subscribers (server : gotailerServer) (s : Nat) :
    (subscribeRecv server s).subscribers = server.subscribers ∧
    (subscribeRecv server s).nextPtr = server.nextPtr ∧
    (subscribeRecv server s).messageBufferSize = server.messageBufferSize := by
  unfold subscribeRecv
  split
  · split <;> simp
  · simp

theorem subscribeRecv_heap_ne (server : gotailerServer) (s p : Nat) (h : p ≠ s) :
    (subscribeRecv server s).heap p = server.heap p := by
  unfold subscribeRecv
  split
  · split
    · rfl
    · simp [Function.update_noteq h]
  · rfl

theorem subscribeRecv_heap_nil (server : gotailerServer) (s : Nat)
    (hq : (server.heap s).messages = []) :
    subscribeRecv server s = server := by
  unfold subscribeRecv
  split
  · simp [hq]
  · rfl

theorem subscribeRecv_heap_cons (server : gotailerServer) (s : Nat) (hs : s ∈ server.subscribers)
    (m : ByteSlice) (rest : List ByteSlice) (hq : (server.heap s).messages = m :: rest) :
    (subscribeRecv server s).heap s =
      { server.heap s with messages := rest, wire := (server.heap s).wire ++ [m] } := by
  unfold subscribeRecv
  simp [hs, hq]

theorem WF_new : WF newGotailerServer := by
  refine ⟨rfl, ?_, ?_, ?_, ?_⟩ <;> simp [newGotailerServer]

theorem WF_subscribeEnter (server : gotailerServer) (h : WF server) :
    WF (subscribeEnter server) := by
  have hfresh : server.nextPtr ∉ server.subscribers := fun hm =>
    Nat.lt_irrefl _ (h.alloc _ hm)
  refine ⟨?_, ?_, ?_, ?_, ?_⟩
  · simpa [subscribeEnter, addSubscriber] using h.size
  · simp only [subscribeEnter, addSubscriber, hfresh, if_false]
    exact List.nodup_cons.mpr ⟨hfresh, h.nodup⟩
  · intro s hs
    simp only [subscribeEnter, addSubscriber, hfresh, if_false, List.mem_cons] at hs ⊢
    rcases hs with rfl | hs
    · exact Nat.lt_succ_self _
    · exact Nat.lt_succ_of_lt (h.alloc s hs)
  · intro p hp
    simp only [subscribeEnter, addSubscriber] at hp ⊢
    by_cases hpe : p = server.nextPtr
    · subst hpe
      simpa using h.size
    · rw [Function.update_noteq hpe]
      exact h.cap p (by omega)
  · intro p
    simp only [subscribeEnter, addSubscriber]
    by_cases hpe : p = server.nextPtr
    · subst hpe
      simp
    · rw [Function.update_noteq hpe]
      exact h.bound p

theorem WF_removeSubscriber (server : gotailerServer) (h : WF server) (s : Nat) :
    WF (removeSubscriber server s) :=
  ⟨h.size, h.nodup.erase s, fun p hp => h.alloc p (List.mem_of_mem_erase hp), h.cap, h.bound⟩

theorem WF_publish (server : gotailerServer) (h : WF server) (m : ByteSlice) :
    WF (publish server m) := by
  refine ⟨?_, ?_, ?_, ?_, ?_⟩
  · rw [publish_messageBufferSize]; exact h.size
  · rw [publish_subscribers]; exact h.nodup
  · rw [publish_subscribers, publish_nextPtr]; exact h.alloc
  · intro p hp
    rw [publish_nextPtr] at hp
    rw [publish_heap server h.nodup]
    split
    · rw [trySend_capacity]; exact h.cap p hp
    · exact h.cap p hp
  · intro p
    rw [publish_heap server h.nodup]
    split
    · rename_i hmem
      have hc := h.cap p (h.alloc p hmem)
      have hb := h.bound p
      unfold trySend
      split
      · simp only [List.length_append, List.length_singleton]
        omega
      · exact hb
    · exact h.bound p

theorem WF_subscribeRecv (server : gotailerServer) (h : WF server) (s : Nat) :
    WF (subscribeRecv server s) := by
  obtain ⟨h1, h2, h3⟩ := subscribeRecv_subscribers server s
  refine ⟨h3 ▸ h.size, h1 ▸ h.nodup, ?_, ?_, ?_⟩
  · rw [h1, h2]; exact h.alloc
  · intro p hp
    rw [h2] at hp
    unfold subscribeRecv
    split
    · split
      · exact h.cap p hp
      · by_cases hps : p = s
        · subst hps; simpa using h.cap p hp
        · simpa [Function.update_noteq hps] using h.cap p hp
    · exact h.cap p hp
  · intro p
    unfold subscribeRecv
    split
    · split
      · exact h.bound p
      · rename_i m rest hq
        by_cases hps : p = s
        · subst hps
          have := h.bound p
          rw [hq] at this
          simp only [List.length_cons] at this
          simp only [Function.update_same]
          omega
        · simpa [Function.update_noteq hps] using h.bound p
    · exact h.bound p

theorem WF_step (server : gotailerServer) (h : WF server) (op : Op) : WF (step server op) := by
  cases op with
  | connect => exact WF_subscribeEnter server h
  | disconnect s => exact WF_removeSubscriber server h s
  | publish m => exact WF_publish server h m
  | recv s => exact WF_subscribeRecv server h s

theorem WF_runOps (ops : List Op) (server : gotailerServer) (h : WF server) :
    WF (runOps server ops) := by
  induction ops generalizing server with
  | nil => exact h
  | cons op ops ih => exact ih (step server op) (WF_step server h op)

theorem Reachable.wf {server : gotailerServer} (h : Reachable server) : WF server := by
  obtain ⟨ops, rfl⟩ := h
  exact WF_runOps ops _ WF_new

theorem Reachable.runOps {server : gotailerServer} (h : Reachable server) (ops : List Op) :
    Reachable (runOps server ops) := by
  obtain ⟨ops₀, rfl⟩ := h
  exact ⟨ops₀ ++ ops, by simp [Gotailer.runOps, List.foldl_append]⟩

/-! ## The effect of one operation on a registered subscriber -/

theorem step_connect_heap (server : gotailerServer) (h : WF server) (s : Nat)
    (hs : s ∈ server.subscribers) :
    (step server .connect).heap s = server.heap s ∧ s ∈ (step server .connect).subscribers := by
  have hne : s ≠ server.nextPtr := Nat.ne_of_lt (h.alloc s hs)
  have hfresh : server.nextPtr ∉ server.subscribers := fun hm =>
    Nat.lt_irrefl _ (h.alloc _ hm)
  constructor
  · simp [step, subscribeEnter, addSubscriber, Function.update_noteq hne]
  · simp [step, subscribeEnter, addSubscriber, hfresh, hs]

theorem step_disconnect_heap (server : gotailerServer) (s p : Nat)
    (hs : s ∈ server.subscribers) (hp : p ≠ s) :
    (step server (.disconnect p)).heap s = server.heap s ∧
      s ∈ (step server (.disconnect p)).subscribers := by
  constructor
  · rfl
  · simp only [step, removeSubscriber]
    exact (List.mem_erase_of_ne (Ne.symm hp)).mpr hs

theorem step_publish_heap (server : gotailerServer) (h : WF server) (s : Nat)
    (hs : s ∈ server.subscribers) (m : ByteSlice) :
    (step server (.publish m)).heap s = trySend m (server.heap s) ∧
      s ∈ (step server (.publish m)).subscribers := by
  constructor
  · simp [step, publish_heap server h.nodup, hs]
  · simpa [step, publish_subscribers] using hs

theorem step_recv_mem (server : gotailerServer) (s p : Nat) (hs : s ∈ server.subscribers) :
    s ∈ (step server (.recv p)).subscribers := by
  simp only [step]
  rw [(subscribeRecv_subscribers server p).1]
  exact hs

/-- A registered subscriber that is not disconnected stays registered. -/
theorem runOps_mem (ops : List Op) (server : gotailerServer) (h : WF server) (s : Nat)
    (hs : s ∈ server.subscribers) (hops : ∀ op ∈ ops, Op.removes s op = false) :
    s ∈ (runOps server ops).subscribers := by
  induction ops generalizing server with
  | nil => exact hs
  | cons op ops ih =>
    have hop := hops op (List.mem_cons_self _ _)
    have hrest : ∀ o ∈ ops, Op.removes s o = false := fun o ho =>
      hops o (List.mem_cons_of_mem _ ho)
    refine ih (step server op) (WF_step server h op) ?_ hrest
    cases op with
    | connect => exact (step_connect_heap server h s hs).2
    | disconnect p =>
      have hp : p ≠ s := by simpa [Op.removes] using hop
      exact (step_disconnect_heap server s p hs hp).2
    | publish m => exact (step_publish_heap server h s hs m).2
    | recv p => exact step_recv_mem server s p hs

/-- Queue conservation: what a subscriber has written to the wire followed by
what is still in its queue grows by exactly the published messages, and no
`closeSlow` is spawned for it, as long as its queue has room at every publish
and it is not disconnected. -/
theorem runOps_conservation (ops : List Op) (server : gotailerServer) (h : WF server) (s : Nat)
    (hs : s ∈ server.subscribers) (hops : ∀ op ∈ ops, Op.removes s op = false)
    (hroom : roomAtEveryPublish s server ops) :
    ((runOps server ops).heap s).wire ++ ((runOps server ops).heap s).messages =
      (server.heap s).wire ++ (server.heap s).messages ++ published ops ∧
    (server.heap s).wire <+: ((runOps server ops).heap s).wire ∧
    ((runOps server ops).heap s).closeSlow = (server.heap s).closeSlow := by
  induction ops generalizing server with
  | nil => simp [runOps, published]
  | cons op ops ih =>
    have hop := hops op (List.mem_cons_self _ _)
    have hrest : ∀ o ∈ ops, Op.removes s o = false := fun o ho =>
      hops o (List.mem_cons_of_mem _ ho)
    obtain ⟨hr1, hr2⟩ := hroom
    have hwf := WF_step server h op
    have hmem : s ∈ (step server op).subscribers :=
      runOps_mem [op] server h s hs (by simpa using hop)
    obtain ⟨ih1, ih2, ih3⟩ := ih (step server op) hwf hmem hrest hr2
    have hrun : runOps server (op :: ops) = runOps (step server op) ops := rfl
    rw [hrun, ih1, ih3]
    cases op with
    | connect =>
      have := (step_connect_heap server h s hs).1
      rw [this] at ih2 ⊢
      exact ⟨by simp [published], ih2, rfl⟩
    | disconnect p =>
      have hp : p ≠ s := by simpa [Op.removes] using hop
      have := (step_disconnect_heap server s p hs hp).1
      rw [this] at ih2 ⊢
      exact ⟨by simp [published], ih2, rfl⟩
    | publish m =>
      have := (step_publish_heap server h s hs m).1
      rw [this] at ih2 ⊢
      rw [trySend_room m _ hr1] at ih2 ⊢
      exact ⟨by simp [published], ih2, rfl⟩
    | recv p =>
      by_cases hp : s = p
      · subst hp
        cases hq : (server.heap s).messages with
        | nil =>
          have : step server (.recv s) = server := subscribeRecv_heap_nil server s hq
          rw [this] at ih2 ⊢
          exact ⟨by simp [published, hq], ih2, rfl⟩
        | cons m rest =>
          have : (step server (.recv s)).heap s = _ := subscribeRecv_heap_cons server s hs m rest hq
          rw [this] at ih2 ⊢
          refine ⟨by simp [published], ?_, rfl⟩
          exact (List.prefix_append _ _).trans ih2
      · have : (step server (.recv p)).heap s = server.heap s :=
          subscribeRecv_heap_ne server p s hp
        rw [this] at ih2 ⊢
        exact ⟨by simp [published], ih2, rfl⟩

/-- A subscriber that neither receives nor disconnects keeps the first 256
messages offered to its queue; every later publish spawns one `closeSlow`. -/
theorem runOps_never_dequeues (ops : List Op) (server : gotailerServer) (h : WF server) (s : Nat)
    (hs : s ∈ server.subscribers) (hops : ∀ op ∈ ops, Op.touches s op = false) :
    ((runOps server ops).heap s).messages =
      ((server.heap s).messages ++ published ops).take 256 ∧
    ((runOps server ops).heap s).closeSlow =
      (server.heap s).closeSlow +
        (((server.heap s).messages.length + (published ops).length) - 256) := by
  induction ops generalizing server with
  | nil =>
    have := h.bound s
    simp only [runOps, List.foldl_nil, published, List.append_nil, List.length_nil, Nat.add_zero]
    exact ⟨(List.take_of_length_le this).symm, by omega⟩
  | cons op ops ih =>
    have hop := hops op (List.mem_cons_self _ _)
    have hrest : ∀ o ∈ ops, Op.touches s o = false := fun o ho =>
      hops o (List.mem_cons_of_mem _ ho)
    have hwf := WF_step server h op
    have hrun : runOps server (op :: ops) = runOps (step server op) ops := rfl
    cases op with
    | connect =>
      obtain ⟨e, hm⟩ := step_connect_heap server h s hs
      obtain ⟨ih1, ih2⟩ := ih _ hwf hm hrest
      rw [hrun, ih1, ih2, e]
      simp [published]
    | disconnect p =>
      have hp : p ≠ s := by simpa [Op.touches] using hop
      obtain ⟨e, hm⟩ := step_disconnect_heap server s p hs hp
      obtain ⟨ih1, ih2⟩ := ih _ hwf hm hrest
      rw [hrun, ih1, ih2, e]
      simp [published]
    | publish m =>
      obtain ⟨e, hm⟩ := step_publish_heap server h s hs m
      obtain ⟨ih1, ih2⟩ := ih _ hwf hm hrest
      rw [hrun, ih1, ih2, e]
      have hc := h.cap s (h.alloc s hs)
      have hb := h.bound s
      by_cases hroom : (server.heap s).messages.length < (server.heap s).capacity
      · rw [trySend_room m _ hroom]
        simp only [published, List.append_assoc, List.singleton_append, List.length_append,
          List.length_cons, List.length_nil]
        exact ⟨trivial, by omega⟩
      · rw [trySend_full m _ hroom]
        have hlen : (server.heap s).messages.length = 256 := by omega
        simp only [published, List.length_cons]
        refine ⟨?_, by omega⟩
        rw [List.take_append_of_le_length (by omega), List.take_append_of_le_length (by omega)]
    | recv p =>
      have hp : p ≠ s := by simpa [Op.touches] using hop
      have e : (step server (.recv p)).heap s = server.heap s :=
        subscribeRecv_heap_ne server p s (Ne.symm hp)
      have hm := step_recv_mem server s p hs
      obtain ⟨ih1, ih2⟩ := ih _ hwf hm hrest
      rw [hrun, ih1, ih2, e]
      simp [published]

/-! ## Properties of the registry -/

/-- C1: in every reachable state, `publish msg` treats each registered
subscriber in exactly one of two ways: when its queue held fewer than 256
messages the queue becomes the previous queue with `msg` at the tail and no
`closeSlow` is spawned; when its queue held 256 messages the queue is unchanged
and one `closeSlow` is spawned. -/
theorem publish_enqueues_or_schedules_eject (server : gotailerServer) (h : Reachable server)
    (msg : ByteSlice) (s : Nat) (hs : s ∈ server.subscribers) :
    ((server.heap s).messages.length < 256 ∧
      ((publish server msg).heap s).messages = (server.heap s).messages ++ [msg] ∧
      ((publish server msg).heap s).closeSlow = (server.heap s).closeSlow) ∨
    ((server.heap s).messages.length = 256 ∧
      ((publish server msg).heap s).messages = (server.heap s).messages ∧
      ((publish server msg).heap s).closeSlow = (server.heap s).closeSlow + 1) := by
  have hwf := h.wf
  have hc := hwf.cap s (hwf.alloc s hs)
  have hb := hwf.bound s
  rw [publish_heap server hwf.nodup, if_pos hs]
  by_cases hroom : (server.heap s).messages.length < (server.heap s).capacity
  · left
    rw [trySend_room msg _ hroom]
    exact ⟨by omega, rfl, rfl⟩
  · right
    rw [trySend_full msg _ hroom]
    exact ⟨by omega, rfl, rfl⟩

/-- Instance of C1: one fresh subscriber, one publish. -/
theorem publish_enqueues_or_schedules_eject_witness :
    Reachable (runOps newGotailerServer [Op.connect]) ∧
    0 ∈ (runOps newGotailerServer [Op.connect]).subscribers ∧
    ((((runOps newGotailerServer [Op.connect]).heap 0).messages.length < 256 ∧
      ((publish (runOps newGotailerServer [Op.connect]) ⟨0, 0, 1⟩).heap 0).messages =
        ((runOps newGotailerServer [Op.connect]).heap 0).messages ++ [⟨0, 0, 1⟩] ∧
      ((publish (runOps newGotailerServer [Op.connect]) ⟨0, 0, 1⟩).heap 0).closeSlow =
        ((runOps newGotailerServer [Op.connect]).heap 0).closeSlow) ∨
    (((runOps newGotailerServer [Op.connect]).heap 0).messages.length = 256 ∧
      ((publish (runOps newGotailerServer [Op.connect]) ⟨0, 0, 1⟩).heap 0).messages =
        ((runOps newGotailerServer [Op.connect]).heap 0).messages ∧
      ((publish (runOps newGotailerServer [Op.connect]) ⟨0, 0, 1⟩).heap 0).closeSlow =
        ((runOps newGotailerServer [Op.connect]).heap 0).closeSlow + 1)) :=
  ⟨⟨[Op.connect], rfl⟩, by decide,
    publish_enqueues_or_schedules_eject (runOps newGotailerServer [Op.connect])
      ⟨[Op.connect], rfl⟩ ⟨0, 0, 1⟩ 0 (by decide)⟩

/-- C2: a subscriber that is registered with an empty queue, is not
disconnected during the run and has room in its queue at every publish, has
dequeued a sequence `dequeued` during the run such that `dequeued` followed by
its queue is exactly the sequence of published messages, in publish order; no
`closeSlow` has been spawned for it and it is still registered at the end. -/
theorem never_ejected_receives_all_in_order (server : gotailerServer) (h : Reachable server)
    (s : Nat) (hs : s ∈ server.subscribers) (hq : (server.heap s).messages = [])
    (ops : List Op) (hops : ∀ op ∈ ops, Op.removes s op = false)
    (hroom : roomAtEveryPublish s server ops) :
    s ∈ (runOps server ops).subscribers ∧
    ((runOps server ops).heap s).closeSlow = (server.heap s).closeSlow ∧
    ∃ dequeued,
      ((runOps server ops).heap s).wire = (server.heap s).wire ++ dequeued ∧
      dequeued ++ ((runOps server ops).heap s).messages = published ops := by
  obtain ⟨h1, ⟨d, hd⟩, h3⟩ := runOps_conservation ops server h.wf s hs hops hroom
  refine ⟨runOps_mem ops server h.wf s hs hops, h3, d, hd.symm, ?_⟩
  rw [← hd, hq, List.append_nil, List.append_assoc] at h1
  exact List.append_cancel_left h1

/-- Instance of C2: three publishes interleaved with one receive. -/
theorem never_ejected_receives_all_in_order_witness :
    0 ∈ (runOps (runOps newGotailerServer [Op.connect])
        [Op.publish ⟨0, 0, 1⟩, Op.publish ⟨0, 2, 1⟩, Op.recv 0, Op.publish ⟨0, 4, 1⟩]).subscribers ∧
    ((runOps (runOps newGotailerServer [Op.connect])
        [Op.publish ⟨0, 0, 1⟩, Op.publish ⟨0, 2, 1⟩, Op.recv 0, Op.publish ⟨0, 4, 1⟩]).heap 0).closeSlow =
      ((runOps newGotailerServer [Op.connect]).heap 0).closeSlow ∧
    ∃ dequeued,
      ((runOps (runOps newGotailerServer [Op.connect])
        [Op.publish ⟨0, 0, 1⟩, Op.publish ⟨0, 2, 1⟩, Op.recv 0, Op.publish ⟨0, 4, 1⟩]).heap 0).wire =
        ((runOps newGotailerServer [Op.connect]).heap 0).wire ++ dequeued ∧
      dequeued ++ ((runOps (runOps newGotailerServer [Op.connect])
        [Op.publish ⟨0, 0, 1⟩, Op.publish ⟨0, 2, 1⟩, Op.recv 0, Op.publish ⟨0, 4, 1⟩]).heap 0).messages =
        published [Op.publish ⟨0, 0, 1⟩, Op.publish ⟨0, 2, 1⟩, Op.recv 0, Op.publish ⟨0, 4, 1⟩] :=
  never_ejected_receives_all_in_order (runOps newGotailerServer [Op.connect])
    ⟨[Op.connect], rfl⟩ 0 (by decide) (by decide)
    [Op.publish ⟨0, 0, 1⟩, Op.publish ⟨0, 2, 1⟩, Op.recv 0, Op.publish ⟨0, 4, 1⟩]
    (by decide) ⟨by decide, by decide, trivial, by decide, trivial⟩

/-- C6: every queue of a reachable state holds at most 256 messages; and a
subscriber that registers in a reachable state and then neither receives nor
disconnects holds exactly the first 256 messages published after its
registration, one `closeSlow` being spawned for each publish after the 256th
(none for the first 256, so the 257th publish is the first to schedule the
eject). -/
theorem queue_capacity_256 (server : gotailerServer) (h : Reachable server) (ops : List Op)
    (hops : ∀ op ∈ ops, Op.touches server.nextPtr op = false) :
    (∀ p, (server.heap p).messages.length ≤ 256) ∧
    ((runOps (subscribeEnter server) ops).heap server.nextPtr).messages =
      (published ops).take 256 ∧
    ((runOps (subscribeEnter server) ops).heap server.nextPtr).closeSlow =
      (published ops).length - 256 := by
  have hwf := h.wf
  have hwf1 := WF_subscribeEnter server hwf
  have hfresh : server.nextPtr ∉ server.subscribers := fun hm =>
    Nat.lt_irrefl _ (hwf.alloc _ hm)
  have hmem : server.nextPtr ∈ (subscribeEnter server).subscribers := by
    simp [subscribeEnter, addSubscriber, hfresh]
  have hobj : (subscribeEnter server).heap server.nextPtr =
      { messages := [], capacity := server.messageBufferSize, closeSlow := 0, wire := [] } := by
    simp [subscribeEnter, addSubscriber]
  obtain ⟨h1, h2⟩ := runOps_never_dequeues ops (subscribeEnter server) hwf1 server.nextPtr hmem hops
  rw [hobj] at h1 h2
  refine ⟨hwf.bound, ?_, ?_⟩
  · simpa using h1
  · simpa using h2

/-- Instance of C6: a fresh subscriber and 257 publishes. -/
theorem queue_capacity_256_witness :
    (∀ p, (newGotailerServer.heap p).messages.length ≤ 256) ∧
    ((runOps (subscribeEnter newGotailerServer)
        (List.replicate 257 (Op.publish ⟨0, 0, 1⟩))).heap newGotailerServer.nextPtr).messages =
      (published (List.replicate 257 (Op.publish ⟨0, 0, 1⟩))).take 256 ∧
    ((runOps (subscribeEnter newGotailerServer)
        (List.replicate 257 (Op.publish ⟨0, 0, 1⟩))).heap newGotailerServer.nextPtr).closeSlow =
      (published (List.replicate 257 (Op.publish ⟨0, 0, 1⟩))).length - 256 :=
  queue_capacity_256 newGotailerServer ⟨[], rfl⟩ (List.replicate 257 (Op.publish ⟨0, 0, 1⟩))
    (fun op hop => by rw [List.eq_of_mem_replicate hop]; rfl)

/-- C7: `publish` leaves the registry as it found it, so every subscriber
registered before the call, one whose queue was full included, is registered
after it. -/
theorem publish_keeps_registry (server : gotailerServer) (msg : ByteSlice) :
    (publish server msg).subscribers = server.subscribers ∧
    ∀ s, s ∈ server.subscribers →
      ¬ (server.heap s).messages.length < (server.heap s).capacity →
      s ∈ (publish server msg).subscribers := by
  refine ⟨publish_subscribers server msg, fun s hs _ => ?_⟩
  rw [publish_subscribers]
  exact hs

/-- C8: adding a subscriber that is not registered and removing it again gives
back the state before the add. -/
theorem add_then_remove (server : gotailerServer) (s : Nat) (hs : s ∉ server.subscribers) :
    removeSubscriber (addSubscriber server s) s = server := by
  cases server
  simp_all [removeSubscriber, addSubscriber]

/-- Instance of C8: two connected subscribers and the new address 5. -/
theorem add_then_remove_witness :
    5 ∉ (runOps newGotailerServer [Op.connect, Op.connect]).subscribers ∧
    removeSubscriber (addSubscriber (runOps newGotailerServer [Op.connect, Op.connect]) 5) 5 =
      runOps newGotailerServer [Op.connect, Op.connect] :=
  ⟨by decide, add_then_remove (runOps newGotailerServer [Op.connect, Op.connect]) 5 (by decide)⟩

/-- C10: a registered subscriber whose queue is full loses the next message and
still receives the one after it.  `publish m₁` leaves its queue as it was,
spawns `closeSlow` and keeps it registered; once it has dequeued one message,
`publish m₂` puts `m₂` at the tail of its queue, which therefore holds the
messages before `m₁` and `m₂` but not `m₁`. -/
theorem lossy_subscriber_keeps_receiving (server : gotailerServer) (h : Reachable server)
    (s : Nat) (hs : s ∈ server.subscribers) (hfull : (server.heap s).messages.length = 256)
    (m₁ m₂ : ByteSlice) :
    ((publish server m₁).heap s).messages = (server.heap s).messages ∧
    ((publish server m₁).heap s).closeSlow = (server.heap s).closeSlow + 1 ∧
    s ∈ (publish server m₁).subscribers ∧
    ((publish (subscribeRecv (publish server m₁) s) m₂).heap s).messages =
      (server.heap s).messages.tail ++ [m₂] ∧
    s ∈ (publish (subscribeRecv (publish server m₁) s) m₂).subscribers := by
  have hwf := h.wf
  have hc := hwf.cap s (hwf.alloc s hs)
  have hnot : ¬ (server.heap s).messages.length < (server.heap s).capacity := by omega
  have hwf1 := WF_publish server hwf m₁
  have hs1 : s ∈ (publish server m₁).subscribers := by rw [publish_subscribers]; exact hs
  have h1 : (publish server m₁).heap s =
      { server.heap s with closeSlow := (server.heap s).closeSlow + 1 } := by
    rw [publish_heap server hwf.nodup, if_pos hs, trySend_full m₁ _ hnot]
  have hwf2 := WF_subscribeRecv _ hwf1 s
  have hs2 : s ∈ (subscribeRecv (publish server m₁) s).subscribers := by
    rw [(subscribeRecv_subscribers _ s).1]; exact hs1
  refine ⟨by rw [h1], by rw [h1], hs1, ?_, by rw [publish_subscribers]; exact hs2⟩
  cases hq : (server.heap s).messages with
  | nil => rw [hq] at hfull; simp at hfull
  | cons m rest =>
    have hq1 : ((publish server m₁).heap s).messages = m :: rest := by rw [h1]; exact hq
    have h2 := subscribeRecv_heap_cons _ s hs1 m rest hq1
    rw [publish_heap _ hwf2.nodup, if_pos hs2, h2]
    have hlen : rest.length < 256 := by
      rw [hq] at hfull; simp only [List.length_cons] at hfull; omega
    have hc1 : ((publish server m₁).heap s).capacity = 256 := by rw [h1]; exact hc
    rw [trySend_room]
    · simp
    · simpa [hc1] using hlen

theorem published_replicate (n : Nat) (m : ByteSlice) :
    published (List.replicate n (Op.publish m)) = List.replicate n m := by
  induction n with
  | zero => rfl
  | succ n ih => simp [List.replicate_succ, published, ih]

theorem fullQueueState_reachable : Reachable fullQueueState := by
  unfold fullQueueState
  exact Reachable.runOps ⟨[Op.connect], rfl⟩ _

theorem fullQueueState_mem : 0 ∈ fullQueueState.subscribers :=
  runOps_mem _ _ (WF_subscribeEnter _ WF_new) 0 (by decide)
    (fun op hop => by rw [List.eq_of_mem_replicate hop]; rfl)

theorem fullQueueState_full : (fullQueueState.heap 0).messages.length = 256 := by
  have h := (runOps_never_dequeues (List.replicate 256 (Op.publish ⟨0, 0, 1⟩))
    (subscribeEnter newGotailerServer) (WF_subscribeEnter _ WF_new) 0 (by decide)
    (fun op hop => by rw [List.eq_of_mem_replicate hop]; rfl)).1
  have hq : ((subscribeEnter newGotailerServer).heap 0).messages = [] := rfl
  unfold fullQueueState
  rw [h, published_replicate, hq, List.nil_append, List.length_take, List.length_replicate]
  rfl

/-- Instance of C10: the subscriber of `fullQueueState`, whose queue holds 256
messages, with the messages `⟨0, 256, 1⟩` (lost) and `⟨0, 257, 1⟩` (enqueued). -/
theorem lossy_subscriber_keeps_receiving_witness :
    ((publish fullQueueState ⟨0, 256, 1⟩).heap 0).messages = (fullQueueState.heap 0).messages ∧
    ((publish fullQueueState ⟨0, 256, 1⟩).heap 0).closeSlow =
      (fullQueueState.heap 0).closeSlow + 1 ∧
    0 ∈ (publish fullQueueState ⟨0, 256, 1⟩).subscribers ∧
    ((publish (subscribeRecv (publish fullQueueState ⟨0, 256, 1⟩) 0) ⟨0, 257, 1⟩).heap 0).messages =
      (fullQueueState.heap 0).messages.tail ++ [⟨0, 257, 1⟩] ∧
    0 ∈ (publish (subscribeRecv (publish fullQueueState ⟨0, 256, 1⟩) 0) ⟨0, 257, 1⟩).subscribers :=
  lossy_subscriber_keeps_receiving fullQueueState fullQueueState_reachable 0
    fullQueueState_mem fullQueueState_full ⟨0, 256, 1⟩ ⟨0, 257, 1⟩

/-! ## Lemmas on bytes and lines -/

theorem IndexByte_none {data : List Byte} {c : Byte} :
    IndexByte data c = none ↔ c ∉ data := by
  induction data with
  | nil => simp [IndexByte]
  | cons b rest ih =>
    unfold IndexByte
    by_cases hb : b = c
    · simp [hb]
    · simp [hb, ih, Ne.symm hb]

theorem IndexByte_some {data : List Byte} {c : Byte} {i : Nat} (h : IndexByte data c = some i) :
    i < data.length ∧ c ∉ data.take i ∧ data = data.take i ++ c :: data.drop (i + 1) := by
  induction data generalizing i with
  | nil => simp [IndexByte] at h
  | cons b rest ih =>
    unfold IndexByte at h
    by_cases hb : b = c
    · simp only [hb, if_true, Option.some.injEq] at h
      subst h
      simp [hb]
    · simp only [hb, if_false, Option.map_eq_some'] at h
      obtain ⟨j, hj, rfl⟩ := h
      obtain ⟨h1, h2, h3⟩ := ih hj
      refine ⟨by simp; omega, ?_, ?_⟩
      · simp [List.take_succ_cons, h2, Ne.symm hb]
      · simp only [List.take_succ_cons, List.drop_succ_cons, List.cons_append]
        rw [← h3]

theorem IndexByte_append {a : List Byte} {c : Byte} (h : c ∉ a) (rest : List Byte) :
    IndexByte (a ++ c :: rest) c = some a.length := by
  induction a with
  | nil => simp [IndexByte]
  | cons b a ih =>
    have hb : b ≠ c := fun e => h (by simp [e])
    have ha : c ∉ a := fun e => h (by simp [e])
    simp [IndexByte, hb, ih ha]

theorem IndexByte_append_of_some {d : List Byte} {c : Byte} {i : Nat}
    (h : IndexByte d c = some i) (x : List Byte) : IndexByte (d ++ x) c = some i := by
  obtain ⟨h1, h2, h3⟩ := IndexByte_some h
  have hl : (d.take i).length = i := by simp; omega
  calc IndexByte (d ++ x) c
      = IndexByte (d.take i ++ c :: (d.drop (i + 1) ++ x)) c := by
        conv_lhs => rw [h3]
        simp
    _ = some (d.take i).length := IndexByte_append h2 _
    _ = some i := by rw [hl]

theorem dropCR_eq_take (x : List Byte) : dropCR x = x.take (dropCR x).length := by
  unfold dropCR
  split
  · simp [List.dropLast_eq_take]
  · simp

theorem dropCR_length_le (x : List Byte) : (dropCR x).length ≤ x.length := by
  unfold dropCR
  split
  · simp
  · exact Nat.le_refl _

theorem tokensFrom_line (M : Nat) (a : List Byte) (h : NL ∉ a) (acc rest : List Byte) :
    tokensFrom M acc (a ++ NL :: rest) =
      if (acc ++ a).length < M then dropCR (acc ++ a) :: tokensFrom M [] rest else [] := by
  induction a generalizing acc with
  | nil => simp [tokensFrom]
  | cons b a ih =>
    have hb : b ≠ NL := fun e => h (by simp [e])
    have ha : NL ∉ a := fun e => h (by simp [e])
    rw [List.cons_append, tokensFrom, if_neg hb, ih ha]
    simp

theorem tokensFrom_last (M : Nat) (a : List Byte) (h : NL ∉ a) (acc : List Byte) :
    tokensFrom M acc a =
      if acc ++ a = [] then [] else if (acc ++ a).length < M then [dropCR (acc ++ a)] else [] := by
  induction a generalizing acc with
  | nil => simp [tokensFrom]
  | cons b a ih =>
    have hb : b ≠ NL := fun e => h (by simp [e])
    have ha : NL ∉ a := fun e => h (by simp [e])
    rw [tokensFrom, if_neg hb, ih ha]
    simp

/-- The tokens of a stream are its first token followed by the tokens of the
rest. -/
theorem tokensFrom_nextToken (M : Nat) (u : List Byte) :
    tokensFrom M [] u =
      match nextToken M u with
      | some (t, rest) => t :: tokensFrom M [] rest
      | none => [] := by
  unfold nextToken
  cases hi : IndexByte u NL with
  | none =>
    have hnl := IndexByte_none.mp hi
    rw [tokensFrom_last M u hnl]
    simp only [List.nil_append]
    by_cases hu : u = []
    · simp [hu]
    · by_cases hl : u.length < M
      · simp [hu, hl, tokensFrom]
      · simp [hu, hl]
  | some i =>
    obtain ⟨h1, h2, h3⟩ := IndexByte_some hi
    conv_lhs => rw [h3]
    rw [tokensFrom_line M _ h2]
    have hl : (u.take i).length = i := by simp; omega
    simp only [List.nil_append, hl]
    split <;> rfl

/-! ## Lemmas on the scanner -/

theorem mid_window (A B C : List Byte) (i j : Nat) (hA : A.length = i) (hB : B.length = j) :
    ((A ++ B ++ C).drop i).take j = B := by
  subst hA hB
  rw [List.append_assoc, List.drop_left, List.take_left]

theorem window_length (s : Scanner) (h2 : s.end_ ≤ s.buf.length) :
    (window s).length = s.end_ - s.start := by
  simp only [window, List.length_take, List.length_drop]
  omega

theorem buf_split (s : Scanner) (h1 : s.start ≤ s.end_) :
    s.buf = s.buf.take s.start ++ window s ++ s.buf.drop s.end_ := by
  have e : s.buf.drop s.end_ = (s.buf.drop s.start).drop (s.end_ - s.start) := by
    rw [List.drop_drop]
    congr 1
    omega
  rw [window, e, List.append_assoc, List.take_append_drop, List.take_append_drop]

theorem copy_of_le (dst src : List Byte) (h : src.length ≤ dst.length) :
    copy dst src = src ++ dst.drop src.length := by
  unfold copy
  rw [List.take_of_length_le h]

theorem copy_length (dst src : List Byte) (h : src.length ≤ dst.length) :
    (copy dst src).length = dst.length := by
  rw [copy_of_le dst src h]
  simp only [List.length_append, List.length_drop]
  omega

theorem window_fill (s : Scanner) (data : List Byte) (r1 : List (List Byte))
    (h1 : s.start ≤ s.end_) (h2 : s.end_ + data.length ≤ s.buf.length) :
    window (fill s data r1) = window s ++ data ∧
    (fill s data r1).buf.length = s.buf.length := by
  have hw := window_length s (by omega)
  have hc : copy (s.buf.drop s.end_) data = data ++ s.buf.drop (s.end_ + data.length) := by
    rw [copy_of_le _ _ (by simp only [List.length_drop]; omega), List.drop_drop]
  have hb : (fill s data r1).buf =
      s.buf.take s.start ++ (window s ++ data) ++ s.buf.drop (s.end_ + data.length) := by
    have e : s.buf.take s.end_ = s.buf.take s.start ++ window s := by
      have := congrArg (List.take s.end_) (buf_split s h1)
      rw [List.take_append_of_le_length
        (by simp only [List.length_append, List.length_take, hw]; omega)] at this
      rw [this, List.take_of_length_le
        (by simp only [List.length_append, List.length_take, hw]; omega)]
    simp only [fill, hc, e, List.append_assoc]
  constructor
  · unfold window
    rw [hb]
    exact mid_window _ _ _ _ _ (by simp only [List.length_take, fill]; omega)
      (by simp only [List.length_append, hw, fill]; omega)
  · rw [hb]
    simp only [List.length_append, List.length_take, List.length_drop, hw]
    omega

theorem shift_spec (s : Scanner) (h1 : s.start ≤ s.end_) (h2 : s.end_ ≤ s.buf.length) :
    window (shift s) = window s ∧ (shift s).r = s.r ∧ (shift s).err = s.err ∧
    (shift s).maxTokenSize = s.maxTokenSize ∧ (shift s).buf.length = s.buf.length ∧
    (shift s).start ≤ (shift s).end_ ∧ (shift s).end_ ≤ (shift s).buf.length ∧
    ((shift s).end_ = (shift s).buf.length → (shift s).start = 0) := by
  have hw := window_length s h2
  unfold shift
  split
  · rename_i hc
    have hcopy := copy_of_le s.buf (window s) (by rw [hw]; omega)
    have hlen := copy_length s.buf (window s) (by rw [hw]; omega)
    refine ⟨?_, rfl, rfl, rfl, hlen, Nat.zero_le _, ?_, fun _ => rfl⟩
    · show List.take (s.end_ - s.start - 0) (List.drop 0 (copy s.buf (window s))) = window s
      rw [hcopy, List.drop_zero, Nat.sub_zero]
      exact List.take_left' hw
    · simp only [hlen]
      omega
  · rename_i hc
    refine ⟨rfl, rfl, rfl, rfl, rfl, h1, h2, fun he => ?_⟩
    by_contra h0
    exact hc ⟨Nat.pos_of_ne_zero h0, Or.inl he⟩

theorem grow_spec (s : Scanner) (h1 : s.start ≤ s.end_) (h2 : s.end_ ≤ s.buf.length)
    (h3 : s.buf.length < s.maxTokenSize) :
    window (grow s) = window s ∧ (grow s).r = s.r ∧ (grow s).err = s.err ∧
    (grow s).maxTokenSize = s.maxTokenSize ∧
    (grow s).start ≤ (grow s).end_ ∧ (grow s).end_ < (grow s).buf.length ∧
    (grow s).buf.length ≤ s.maxTokenSize := by
  have hw := window_length s h2
  have hsz : s.buf.length <
      min (if s.buf.length * 2 = 0 then startBufSize else s.buf.length * 2) s.maxTokenSize := by
    split
    · simp only [startBufSize]; omega
    · omega
  have hwl : (window s).length ≤
      (List.replicate
        (min (if s.buf.length * 2 = 0 then startBufSize else s.buf.length * 2) s.maxTokenSize)
        (0 : Byte)).length := by
    rw [hw, List.length_replicate]
    omega
  have hcopy := copy_of_le _ _ hwl
  have hlen := copy_length _ _ hwl
  rw [List.length_replicate] at hlen
  refine ⟨?_, rfl, rfl, rfl, Nat.zero_le _, ?_, ?_⟩
  · show List.take (s.end_ - s.start - 0) (List.drop 0 (copy (List.replicate
      (min (if s.buf.length * 2 = 0 then startBufSize else s.buf.length * 2) s.maxTokenSize)
      (0 : Byte)) (window s))) = window s
    rw [hcopy, List.drop_zero, Nat.sub_zero]
    exact List.take_left' hw
  · simp only [grow, hlen]
    omega
  · simp only [grow, hlen]
    omega

theorem Read_spec (r : List (List Byte)) (room : Nat) (hch : ∀ c ∈ r, c ≠ []) (hroom : 0 < room) :
    (r = [] ∧ Read r room = ([], some ScanErr.EOF, [])) ∨
    ∃ data r1, Read r room = (data, none, r1) ∧ 0 < data.length ∧ data.length ≤ room ∧
      data ++ r1.flatten = r.flatten ∧ ∀ c ∈ r1, c ≠ [] := by
  cases r with
  | nil => exact Or.inl ⟨rfl, rfl⟩
  | cons c rest =>
    right
    have hc : c ≠ [] := hch c (List.mem_cons_self _ _)
    have hcl : 0 < c.length := List.length_pos.mpr hc
    have hrest : ∀ x ∈ rest, x ≠ [] := fun x hx => hch x (List.mem_cons_of_mem _ hx)
    by_cases hfit : c.length ≤ room
    · refine ⟨c, rest, by simp [Read, hfit], hcl, hfit, by simp, hrest⟩
    · refine ⟨c.take room, c.drop room :: rest, by simp [Read, hfit], ?_, ?_, ?_, ?_⟩
      · simp only [List.length_take]; omega
      · simp only [List.length_take]; omega
      · simp only [List.flatten_cons, ← List.append_assoc, List.take_append_drop]
      · intro x hx
        rcases List.mem_cons.mp hx with rfl | hx
        · intro e
          have := congrArg List.length e
          simp only [List.length_drop, List.length_nil] at this
          omega
        · exact hrest x hx

theorem readOnce_spec (s : Scanner) (h1 : s.start ≤ s.end_) (h2 : s.end_ < s.buf.length)
    (h3 : s.buf.length ≤ s.maxTokenSize) (h4 : s.maxTokenSize ≤ maxInt / 2)
    (herr : s.err = none) (hch : ∀ c ∈ s.r, c ≠ []) :
    ∃ s1, readOnce s = (s1, false) ∧ ScanInv s1 ∧ unread s1 = unread s ∧
      s1.maxTokenSize = s.maxTokenSize ∧ turnsLeft s1 < turnsLeft s := by
  rcases Read_spec s.r (s.buf.length - s.end_) hch (by omega) with ⟨hr, hR⟩ | ⟨data, r1, hR, hd0, hd1, hd2, hd3⟩
  · obtain ⟨hw, hl⟩ := window_fill s [] [] h1 (by simp only [List.length_nil]; omega)
    refine ⟨{ fill s [] [] with err := some ScanErr.EOF }, ?_, ?_, ?_, rfl, ?_⟩
    · simp [readOnce, hR, setErr, fill, herr]
    · exact ⟨by simp only [fill, List.length_nil]; omega,
        by show (fill s [] []).end_ ≤ (fill s [] []).buf.length
           rw [hl]; simp only [fill, List.length_nil]; omega,
        by show (fill s [] []).buf.length ≤ _
           rw [hl]; exact h3,
        h4,
        Or.inr ⟨rfl, rfl, by
          show (fill s [] []).end_ < (fill s [] []).buf.length
          rw [hl]; simp only [fill, List.length_nil]; omega⟩,
        by intro c hc; simp [fill] at hc⟩
    · show window (fill s [] []) ++ ([] : List (List Byte)).flatten = window s ++ s.r.flatten
      rw [hw, hr]
      simp
    · simp [turnsLeft, fill, herr]
  · obtain ⟨hw, hl⟩ := window_fill s data r1 h1 (by omega)
    refine ⟨fill s data r1, ?_, ?_, ?_, rfl, ?_⟩
    · have hnot : ¬ s.buf.length - s.end_ < data.length := by omega
      have hne : ¬ data.length = 0 := by omega
      simp [readOnce, hR, hnot, hne]
    · exact ⟨by simp only [fill]; omega,
        by rw [hl]; simp only [fill]; omega,
        by rw [hl]; exact h3,
        h4,
        Or.inl herr,
        hd3⟩
    · show window (fill s data r1) ++ r1.flatten = window s ++ s.r.flatten
      rw [hw, List.append_assoc, hd2]
    · have : r1.flatten.length < s.r.flatten.length := by
        rw [← hd2, List.length_append]; omega
      simp only [turnsLeft, fill, herr, if_true]
      omega

theorem readLoop_spec (b : Nat) (s : Scanner) (h1 : s.start ≤ s.end_)
    (h2 : s.end_ < s.buf.length) (h3 : s.buf.length ≤ s.maxTokenSize)
    (h4 : s.maxTokenSize ≤ maxInt / 2) (herr : s.err = none) (hch : ∀ c ∈ s.r, c ≠ []) :
    ScanInv (readLoop b s) ∧ unread (readLoop b s) = unread s ∧
      (readLoop b s).maxTokenSize = s.maxTokenSize ∧ turnsLeft (readLoop b s) < turnsLeft s := by
  obtain ⟨s1, hs1, hinv, hu, hm, ht⟩ := readOnce_spec s h1 h2 h3 h4 herr hch
  have : readLoop b s = s1 := by
    cases b <;> simp [readLoop, hs1]
  rw [this]
  exact ⟨hinv, hu, hm, ht⟩

theorem not_mem_of_IndexByte_ge {w x : List Byte} {i : Nat}
    (h : IndexByte (w ++ x) NL = some i) (hw : NL ∉ w) : w.length ≤ i := by
  by_contra hlt
  obtain ⟨_, _, h3⟩ := IndexByte_some h
  have e := congrArg (List.take (i + 1)) h3
  rw [List.take_append_of_le_length (by omega)] at e
  have hl : ((w ++ x).take i).length = i := by
    simp only [List.length_take, List.length_append]; omega
  have e2 : List.take (i + 1) (List.take i (w ++ x) ++ NL :: List.drop (i + 1) (w ++ x)) =
      List.take i (w ++ x) ++ [NL] := by
    rw [List.take_append_eq_append_take, hl]
    simp [List.take_of_length_le (Nat.le_of_eq hl)]
  rw [e2] at e
  have : NL ∈ w.take (i + 1) := by rw [e]; simp
  exact hw (List.mem_of_mem_take this)

theorem nextToken_none_of_long (M : Nat) (w x : List Byte) (hw : NL ∉ w) (hl : M ≤ w.length) :
    nextToken M (w ++ x) = none := by
  unfold nextToken
  cases hi : IndexByte (w ++ x) NL with
  | some i =>
    have := not_mem_of_IndexByte_ge hi hw
    simp only
    rw [if_neg (by omega)]
  | none =>
    simp only
    by_cases hu : w ++ x = []
    · rw [if_pos hu]
    · rw [if_neg hu, if_neg (by simp only [List.length_append]; omega)]

theorem ScanLines_some {w : List Byte} {i : Nat} (h : IndexByte w NL = some i) (b : Bool) :
    ScanLines w b = (i + 1, some (dropCR (w.take i)).length) := by
  have hl := (IndexByte_some h).1
  unfold ScanLines
  rw [if_neg (by intro hc; omega), h]

theorem ScanLines_none {w : List Byte} (h : IndexByte w NL = none) :
    ScanLines w false = (0, none) := by
  unfold ScanLines
  simp [h]

theorem ScanLines_none_eof {w : List Byte} (h : IndexByte w NL = none) (hw : w ≠ []) :
    ScanLines w true = (w.length, some (dropCR w).length) := by
  unfold ScanLines
  have : ¬ w.length = 0 := fun e => hw (List.length_eq_zero.mp e)
  simp [h, this]

theorem ScanLines_nil_eof : ScanLines [] true = (0, none) := by
  simp [ScanLines]

theorem scanTurn_of_split (s : Scanner) (hcond : s.start < s.end_ ∨ s.err ≠ none)
    (adv : Nat) (tok : Option Nat)
    (hS : ScanLines (window s) (decide (s.err ≠ none)) = (adv, tok))
    (hadv : adv ≤ s.end_ - s.start) :
    scanTurn s =
      if tok.isSome then
        ScanTurn.ret true { s with
          start := s.start + adv
          token := tok.map (fun k => { arr := s.retired.length, off := s.start, len := k }) }
      else
        scanRefill { s with
          start := s.start + adv
          token := tok.map (fun k => { arr := s.retired.length, off := s.start, len := k }) } := by
  unfold scanTurn
  rw [if_pos hcond, hS]
  simp only [afterSplit, Nat.not_lt.mpr hadv, if_false]

/-- The state after `Scan` has cut a token of `k` bytes and advanced by `adv`. -/
theorem token_state (s : Scanner) (hinv : ScanInv s) (adv k : Nat)
    (hadv : adv ≤ s.end_ - s.start) (hk : k ≤ s.end_ - s.start) (s1 : Scanner)
    (hs1 : s1 = { s with
      start := s.start + adv
      token := some { arr := s.retired.length, off := s.start, len := k } }) :
    s1.bytesOf (Bytes s1) = (window s).take k ∧ window s1 = (window s).drop adv ∧
    ScanInv s1 ∧ s1.maxTokenSize = s.maxTokenSize ∧ s1.r = s.r := by
  subst hs1
  refine ⟨?_, ?_, ?_, rfl, rfl⟩
  · simp only [Scanner.bytesOf, Bytes, Option.getD_some, Scanner.array, Nat.lt_irrefl, if_false,
      window, List.take_take]
    rw [Nat.min_eq_left hk]
  · simp only [window, List.drop_take, List.drop_drop]
    congr 1
    omega
  · exact ⟨by show s.start + adv ≤ s.end_
              have := hinv.start_le
              omega,
      hinv.end_le, hinv.len_le, hinv.max_le, hinv.err_ok, hinv.chunks⟩

theorem scanRefill_spec (s : Scanner) (h1 : s.start ≤ s.end_) (h2 : s.end_ ≤ s.buf.length)
    (h3 : s.buf.length ≤ s.maxTokenSize) (h4 : s.maxTokenSize ≤ maxInt / 2)
    (herr : s.err = none) (hch : ∀ c ∈ s.r, c ≠ []) (hnl : NL ∉ window s) :
    (∃ s1, scanRefill s = ScanTurn.ret false s1 ∧ nextToken s.maxTokenSize (unread s) = none) ∨
    (∃ s1, scanRefill s = ScanTurn.again s1 ∧ Progress s s1) := by
  obtain ⟨t1, t2, t3, t4, t5, t6, t7, t8⟩ := shift_spec s h1 h2
  have hu : unread (shift s) = unread s := by simp only [unread, t1, t2]
  have ht : turnsLeft (shift s) = turnsLeft s := by simp only [turnsLeft, t2, t3]
  unfold scanRefill
  rw [if_neg (by simp [herr])]
  simp only
  by_cases hfull : (shift s).end_ = (shift s).buf.length
  · rw [if_pos hfull]
    have hst := t8 hfull
    by_cases hbig : (shift s).maxTokenSize ≤ (shift s).buf.length ∨
        maxInt / 2 < (shift s).buf.length
    · rw [if_pos hbig]
      left
      refine ⟨_, rfl, ?_⟩
      have hM : s.maxTokenSize ≤ s.buf.length := by
        rcases hbig with h | h
        · rw [t4, t5] at h; exact h
        · rw [t5] at h; omega
      have hwl : (window s).length = s.buf.length := by
        rw [← t1, window_length _ t7, hfull, hst, t5]
        rfl
      exact nextToken_none_of_long _ _ _ hnl (by omega)
    · rw [if_neg hbig]
      right
      have hlt : (shift s).buf.length < (shift s).maxTokenSize := by omega
      obtain ⟨g1, g2, g3, g4, g5, g6, g7⟩ := grow_spec (shift s) t6 t7 hlt
      obtain ⟨r1, r2, r3, r4⟩ := readLoop_spec maxConsecutiveEmptyReads (grow (shift s)) g5 g6
        (by rw [g4]; exact g7) (by rw [g4, t4]; exact h4) (by rw [g3, t3]; exact herr)
        (by rw [g2, t2]; exact hch)
      refine ⟨_, rfl, r1, ?_, ?_, ?_⟩
      · rw [r2, ← hu]
        simp only [unread, g1, g2]
      · rw [r3, g4, t4]
      · have : turnsLeft (grow (shift s)) = turnsLeft s := by
          simp only [turnsLeft, g2, g3, t2, t3]
        omega
  · rw [if_neg hfull]
    right
    obtain ⟨r1, r2, r3, r4⟩ := readLoop_spec maxConsecutiveEmptyReads (shift s) t6
      (by omega) (by rw [t4, t5]; exact h3) (by rw [t4]; exact h4) (by rw [t3]; exact herr)
      (by rw [t2]; exact hch)
    exact ⟨_, rfl, r1, by rw [r2, hu], by rw [r3, t4], by omega⟩

theorem scanTurn_spec (s : Scanner) (hinv : ScanInv s) :
    (∃ ok s1, scanTurn s = ScanTurn.ret ok s1 ∧ ScanPost s ok s1) ∨
    (∃ s1, scanTurn s = ScanTurn.again s1 ∧ Progress s s1) := by
  have hwl := window_length s hinv.end_le
  have hse := hinv.start_le
  cases hi : IndexByte (window s) NL with
  | some i =>
    obtain ⟨i1, _, _⟩ := IndexByte_some hi
    rw [hwl] at i1
    have hk : (dropCR ((window s).take i)).length ≤ i := by
      have := dropCR_length_le ((window s).take i)
      simp only [List.length_take] at this
      omega
    have hturn := scanTurn_of_split s (Or.inl (by omega)) (i + 1) (some _)
      (ScanLines_some hi _) (by omega)
    simp only [Option.isSome_some, if_true, Option.map_some'] at hturn
    obtain ⟨b1, b2, b3, b4, b5⟩ := token_state s hinv (i + 1)
      (dropCR ((window s).take i)).length (by omega) (by omega) _ rfl
    left
    refine ⟨true, _, hturn, ?_⟩
    have hM : i < s.maxTokenSize := by
      have := hinv.end_le
      have := hinv.len_le
      omega
    have hnt : nextToken s.maxTokenSize (unread s) =
        some (dropCR ((window s).take i), (window s).drop (i + 1) ++ s.r.flatten) := by
      unfold nextToken unread
      rw [IndexByte_append_of_some hi]
      simp only
      rw [if_pos hM, List.take_append_of_le_length (by omega),
        List.drop_append_of_le_length (by omega)]
    unfold ScanPost
    rw [hnt]
    refine ⟨rfl, ?_, ?_, b3, b4⟩
    · rw [b1]
      conv_rhs => rw [dropCR_eq_take ((window s).take i)]
      rw [List.take_take, Nat.min_eq_left hk]
    · unfold unread
      rw [b2, b5]
  | none =>
    have hnl := IndexByte_none.mp hi
    rcases hinv.err_ok with herr | ⟨herr, hr, hlt⟩
    · have hb : decide (s.err ≠ none) = false := by simp [herr]
      have key : ∀ s0 : Scanner, s0 = { s with start := s.start + 0, token := none } →
          (∃ ok s1, scanRefill s0 = ScanTurn.ret ok s1 ∧ ScanPost s ok s1) ∨
          (∃ s1, scanRefill s0 = ScanTurn.again s1 ∧ Progress s s1) := by
        intro s0 hs0
        subst hs0
        rcases scanRefill_spec { s with start := s.start + 0, token := none }
          hse hinv.end_le hinv.len_le hinv.max_le herr hinv.chunks hnl with
          ⟨s1, e1, e2⟩ | ⟨s1, e1, e2⟩
        · left
          refine ⟨false, s1, e1, ?_⟩
          unfold ScanPost
          have e3 : nextToken s.maxTokenSize (unread s) = none := e2
          rw [e3]
        · right
          exact ⟨s1, e1, e2⟩
      by_cases hlt : s.start < s.end_
      · have hturn := scanTurn_of_split s (Or.inl hlt) 0 none
          (by rw [hb]; exact ScanLines_none hi) (by omega)
        simp only [Option.isSome_none, Bool.false_eq_true, if_false, Option.map_none'] at hturn
        rw [hturn]
        exact key _ rfl
      · have hturn : scanTurn s = scanRefill s := by
          unfold scanTurn
          rw [if_neg (by simp [herr, hlt])]
        rw [hturn]
        rcases scanRefill_spec s hse hinv.end_le hinv.len_le hinv.max_le herr hinv.chunks hnl with
          ⟨s1, e1, e2⟩ | ⟨s1, e1, e2⟩
        · left
          refine ⟨false, s1, e1, ?_⟩
          unfold ScanPost
          rw [e2]
        · right
          exact ⟨s1, e1, e2⟩
    · have hb : decide (s.err ≠ none) = true := by simp [herr]
      have hcond : s.start < s.end_ ∨ s.err ≠ none := Or.inr (by simp [herr])
      have hu : unread s = window s := by simp [unread, hr]
      left
      by_cases hw : window s = []
      · have hturn := scanTurn_of_split s hcond 0 none
          (by rw [hb, hw]; exact ScanLines_nil_eof) (by omega)
        simp only [Option.isSome_none, Bool.false_eq_true, if_false, Option.map_none'] at hturn
        have hret : scanRefill { s with start := s.start + 0, token := none } =
            ScanTurn.ret false
              { ({ s with start := s.start + 0, token := none } : Scanner) with
                start := 0, end_ := 0 } := by
          unfold scanRefill
          rw [if_pos (by simp [herr])]
        refine ⟨false, _, hturn.trans hret, ?_⟩
        unfold ScanPost
        rw [hu, hw]
        simp [nextToken, IndexByte]
      · have hk := dropCR_length_le (window s)
        have hturn := scanTurn_of_split s hcond (window s).length (some _)
          (by rw [hb]; exact ScanLines_none_eof hi hw) (by omega)
        simp only [Option.isSome_some, if_true, Option.map_some'] at hturn
        obtain ⟨b1, b2, b3, b4, b5⟩ := token_state s hinv (window s).length
          (dropCR (window s)).length (by omega) (by omega) _ rfl
        refine ⟨true, _, hturn, ?_⟩
        have hM : (window s).length < s.maxTokenSize := by
          have := hinv.len_le
          omega
        have hnt : nextToken s.maxTokenSize (unread s) = some (dropCR (window s), []) := by
          rw [hu]
          unfold nextToken
          rw [hi]
          simp only
          rw [if_neg hw, if_pos hM]
        unfold ScanPost
        rw [hnt]
        refine ⟨rfl, ?_, ?_, b3, b4⟩
        · rw [b1]
          exact (dropCR_eq_take (window s)).symm
        · unfold unread
          rw [b2, b5, hr]
          simp

theorem ScanPost_of_progress {s s1 s2 : Scanner} {ok : Bool} (hp : Progress s s1)
    (h : ScanPost s1 ok s2) : ScanPost s ok s2 := by
  obtain ⟨_, hu, hm, _⟩ := hp
  unfold ScanPost at h ⊢
  rw [hu, hm] at h
  cases hn : nextToken s.maxTokenSize (unread s) with
  | none => rw [hn] at h; exact h
  | some p =>
    rw [hn] at h
    obtain ⟨a1, a2, a3, a4, a5⟩ := h
    exact ⟨a1, a2, a3, a4, a5⟩

/-- With more turns allowed than there are turns left, the loop of `Scan`
returns, and it returns what `ScanPost` describes. -/
theorem scanLoop_spec (fuel : Nat) (s : Scanner) (hinv : ScanInv s) (hf : turnsLeft s < fuel) :
    ∃ ok s1, scanLoop fuel s = some (ok, s1) ∧ ScanPost s ok s1 := by
  induction fuel generalizing s with
  | zero => omega
  | succ fuel ih =>
    unfold scanLoop
    rcases scanTurn_spec s hinv with ⟨ok, s1, e, hpost⟩ | ⟨s1, e, hp⟩
    · rw [e]
      exact ⟨ok, s1, rfl, hpost⟩
    · rw [e]
      obtain ⟨ok, s2, e2, hpost⟩ := ih s1 hp.1 (by have := hp.2.2.2; omega)
      exact ⟨ok, s2, e2, ScanPost_of_progress hp hpost⟩

/-- The call `Scan` returns: the turns it allows are enough. -/
theorem Scan_spec (s : Scanner) (hinv : ScanInv s) :
    ∃ ok s1, Scan s = some (ok, s1) ∧ ScanPost s ok s1 := by
  unfold Scan
  apply scanLoop_spec _ s hinv
  unfold turnsLeft pendingInput
  split <;> omega

theorem nextToken_rest_length {M : Nat} {u t rest : List Byte}
    (h : nextToken M u = some (t, rest)) : rest.length < u.length := by
  unfold nextToken at h
  cases hi : IndexByte u NL with
  | some i =>
    rw [hi] at h
    simp only at h
    obtain ⟨i1, _, _⟩ := IndexByte_some hi
    split at h
    · simp only [Option.some.injEq, Prod.mk.injEq] at h
      rw [← h.2, List.length_drop]
      omega
    · exact absurd h (by simp)
  | none =>
    rw [hi] at h
    simp only at h
    split at h
    · exact absurd h (by simp)
    · rename_i hu
      split at h
      · simp only [Option.some.injEq, Prod.mk.injEq] at h
        rw [← h.2]
        exact List.length_pos.mpr hu
      · exact absurd h (by simp)

/-- The line-reader loop ends, and the messages it has published are the
tokens of the unread bytes. -/
theorem scannerGoroutine_spec (fuel : Nat) (s : Scanner) (server : gotailerServer)
    (hinv : ScanInv s) (hf : (unread s).length < fuel) :
    ∃ s2 server2, scannerGoroutine fuel s server =
      some (s2, server2, tokensFrom s.maxTokenSize [] (unread s)) := by
  induction fuel generalizing s server with
  | zero => omega
  | succ fuel ih =>
    obtain ⟨ok, s1, e, hpost⟩ := Scan_spec s hinv
    unfold scannerGoroutine
    rw [e, tokensFrom_nextToken]
    unfold ScanPost at hpost
    cases hn : nextToken s.maxTokenSize (unread s) with
    | none =>
      rw [hn] at hpost
      subst hpost
      exact ⟨s1, server, rfl⟩
    | some p =>
      obtain ⟨t, rest⟩ := p
      rw [hn] at hpost
      obtain ⟨a1, a2, a3, a4, a5⟩ := hpost
      subst a1
      have hl := nextToken_rest_length hn
      obtain ⟨s2, server2, e2⟩ := ih s1 (publish server (Bytes s1)) a4 (by rw [a3]; omega)
      simp only [e2, a2, a3, a5]
      exact ⟨s2, server2, rfl⟩

theorem ScanInv_new (r : List (List Byte)) (hch : ∀ c ∈ r, c ≠ []) : ScanInv (NewScanner r) :=
  ⟨Nat.le_refl _, Nat.le_refl _, Nat.zero_le _, by norm_num [NewScanner, MaxScanTokenSize, maxInt],
    Or.inl rfl, hch⟩

/-- A line reader on a pipe that never delivers an empty chunk ends, and the
messages it has published are the tokens of the stream. -/
theorem lineReader_spec (r : List (List Byte)) (server : gotailerServer)
    (hch : ∀ c ∈ r, c ≠ []) :
    ∃ s2 server2, lineReader r server =
      some (s2, server2, tokensFrom MaxScanTokenSize [] r.flatten) := by
  have hu : unread (NewScanner r) = r.flatten := by simp [unread, window, NewScanner]
  obtain ⟨s2, server2, e⟩ := scannerGoroutine_spec (r.flatten.length + 1) (NewScanner r) server
    (ScanInv_new r hch) (by rw [hu]; omega)
  rw [hu] at e
  exact ⟨s2, server2, e⟩

theorem publishedLines_eq (r : List (List Byte)) (server : gotailerServer)
    (hch : ∀ c ∈ r, c ≠ []) :
    publishedLines r server = some (tokensFrom MaxScanTokenSize [] r.flatten) := by
  obtain ⟨s2, server2, e⟩ := lineReader_spec r server hch
  simp [publishedLines, e]

theorem joinLines_cons (l : List Byte) (ls : List (List Byte)) (last : List Byte) :
    joinLines (l :: ls) last = l ++ NL :: joinLines ls last := by
  simp [joinLines]

theorem tokensFrom_joinLines (M : Nat) (ls : List (List Byte)) (tail : List Byte)
    (hls : ∀ l ∈ ls, NL ∉ l ∧ l.length < M) :
    tokensFrom M [] (joinLines ls tail) = ls.map dropCR ++ tokensFrom M [] tail := by
  induction ls with
  | nil => simp [joinLines]
  | cons l ls ih =>
    obtain ⟨h1, h2⟩ := hls l (List.mem_cons_self _ _)
    rw [joinLines_cons, tokensFrom_line M l h1, List.nil_append, if_pos h2,
      ih (fun x hx => hls x (List.mem_cons_of_mem _ hx))]
    simp

theorem tokensFrom_long (M : Nat) (long post : List Byte) (h1 : NL ∉ long)
    (h2 : M ≤ long.length) : tokensFrom M [] (long ++ post) = [] := by
  rw [tokensFrom_nextToken, nextToken_none_of_long M long post h1 h2]

/-- A line reader whose stream holds a line of `MaxScanTokenSize` bytes or more
publishes the lines before it and nothing else. -/
theorem publishedLines_long (r : List (List Byte)) (server : gotailerServer)
    (ls : List (List Byte)) (long post : List Byte)
    (hch : ∀ c ∈ r, c ≠ []) (hstream : r.flatten = joinLines ls (long ++ post))
    (hls : ∀ l ∈ ls, NL ∉ l ∧ l.length < MaxScanTokenSize)
    (hlong : NL ∉ long ∧ MaxScanTokenSize ≤ long.length) :
    publishedLines r server = some (ls.map dropCR) := by
  rw [publishedLines_eq r server hch, hstream, tokensFrom_joinLines _ ls _ hls,
    tokensFrom_long _ long post hlong.1 hlong.2, List.append_nil]

theorem not_mem_replicate_a (n : Nat) : NL ∉ List.replicate n (97 : Byte) := by
  intro h
  have := List.eq_of_mem_replicate h
  exact absurd this (by decide)

theorem long_pipe_chunks (c : List Byte) (n : Nat) (hc : c ≠ []) :
    ∀ x ∈ [c, List.replicate n (97 : Byte) ++ [NL, 98, NL]], x ≠ [] := by
  intro x hx
  rcases List.mem_cons.mp hx with rfl | hx
  · exact hc
  · rw [List.mem_singleton] at hx
    subst hx
    exact List.append_ne_nil_of_right_ne_nil _ (by decide)

theorem long_pipe_stream (ls : List (List Byte)) (n : Nat) :
    [joinLines ls [], List.replicate n (97 : Byte) ++ [NL, 98, NL]].flatten =
      joinLines ls (List.replicate n 97 ++ [NL, 98, NL]) := by
  simp [joinLines]

/-- The stream made of the line `c`, a line of `n` bytes `a` and the line `b`:
with `n` at least `MaxScanTokenSize` only `c` is published. -/
theorem publishedLines_long_line (server : gotailerServer) (n : Nat)
    (hn : MaxScanTokenSize ≤ n) :
    publishedLines [[99, NL], List.replicate n 97 ++ [NL, 98, NL]] server = some [[99]] := by
  have h := publishedLines_long [[99, NL], List.replicate n 97 ++ [NL, 98, NL]]
    server [[99]] (List.replicate n 97) [NL, 98, NL]
    (long_pipe_chunks [99, NL] n (by decide)) (long_pipe_stream [[99]] n)
    (by decide) ⟨not_mem_replicate_a n, by rw [List.length_replicate]; exact hn⟩
  rw [h]
  decide

/-- Every stream is made of newline-free lines, each followed by a newline,
and a newline-free last piece. -/
theorem exists_joinLines (u : List Byte) :
    ∃ ls last, u = joinLines ls last ∧ (∀ l ∈ ls, NL ∉ l) ∧ NL ∉ last := by
  induction u with
  | nil => exact ⟨[], [], rfl, by simp, by simp⟩
  | cons b rest ih =>
    obtain ⟨ls, last, e, h1, h2⟩ := ih
    by_cases hb : b = NL
    · refine ⟨[] :: ls, last, ?_, ?_, h2⟩
      · rw [joinLines_cons, ← e, hb]
        rfl
      · intro l hl
        rcases List.mem_cons.mp hl with rfl | hl
        · simp
        · exact h1 l hl
    · cases ls with
      | nil =>
        refine ⟨[], b :: last, ?_, by simp, ?_⟩
        · rw [e]
          simp [joinLines]
        · intro hm
          rcases List.mem_cons.mp hm with hm | hm
          · exact hb hm.symm
          · exact h2 hm
      | cons l ls =>
        refine ⟨(b :: l) :: ls, last, ?_, ?_, h2⟩
        · rw [e, joinLines_cons, joinLines_cons]
          rfl
        · intro x hx
          rcases List.mem_cons.mp hx with rfl | hx
          · intro hm
            rcases List.mem_cons.mp hm with hm | hm
            · exact hb hm.symm
            · exact h1 l (List.mem_cons_self _ _) hm
          · exact h1 x (List.mem_cons_of_mem _ hx)

/-! ## Properties of the line readers -/

/-- C3, evaluated on the code: the pipe delivers a line of 2049 bytes `a` and
then the line `b`, and one subscriber is connected.  The reader publishes the
two lines, and at the time of each publish the message denotes its line; but
when the subscriber then dequeues the first message, the bytes it denotes are
`b`, newline and 2047 bytes `a`: the second `Scan` has moved the window of the
scanner back to the start of the buffer that the first message points into. -/
theorem published_line_overwritten :
    publishedLines twoLinePipe (subscribeEnter newGotailerServer) =
      some [List.replicate 2049 97, [98]] ∧
    firstDequeued twoLinePipe = some [[98, 10] ++ List.replicate 2047 97] := by
  decide!

/-- C4 as stated fails: the stream is the line `c`, a line of 65537 bytes `a`
and the line `b`.  The reader publishes `c` only; the line `b`, which follows
the long line and is within the limit, is not published. -/
theorem long_line_stops_reader :
    publishedLines [[99, NL], List.replicate 65537 97 ++ [NL, 98, NL]] newGotailerServer =
      some [[99]] ∧ [98] ∉ [[(99 : Byte)]] :=
  ⟨publishedLines_long_line newGotailerServer 65537 (by decide), by decide⟩

/-- C4, amended: when the stream consists of lines `ls` shorter than 65536
bytes, then a line of 65536 bytes or more, then anything, and the pipe never
delivers an empty chunk, the line reader ends having published exactly the
lines `ls` (each without one final carriage return): the long line and
everything after it are not published. -/
theorem lineReader_stops_at_long_line (r : List (List Byte)) (server : gotailerServer)
    (ls : List (List Byte)) (long post : List Byte)
    (hch : ∀ c ∈ r, c ≠ []) (hstream : r.flatten = joinLines ls (long ++ post))
    (hls : ∀ l ∈ ls, NL ∉ l ∧ l.length < MaxScanTokenSize)
    (hlong : NL ∉ long ∧ MaxScanTokenSize ≤ long.length) :
    publishedLines r server = some (ls.map dropCR) :=
  publishedLines_long r server ls long post hch hstream hls hlong

/-- Instance of C4 amended: the lines `c` and `d`, delivered in one chunk, a
line of 70000 bytes `a`, and the line `b`. -/
theorem lineReader_stops_at_long_line_witness :
    publishedLines [[99, NL, 100, NL], List.replicate 70000 97 ++ [NL, 98, NL]]
      (subscribeEnter newGotailerServer) = some ([[99], [100]].map dropCR) :=
  lineReader_stops_at_long_line [[99, NL, 100, NL], List.replicate 70000 97 ++ [NL, 98, NL]]
    (subscribeEnter newGotailerServer) [[99], [100]] (List.replicate 70000 97) [NL, 98, NL]
    (long_pipe_chunks [99, NL, 100, NL] 70000 (by decide))
    (long_pipe_stream [[99], [100]] 70000)
    (by decide) ⟨not_mem_replicate_a 70000, by rw [List.length_replicate]; decide⟩

/-- C5 as stated fails: for the stream `a`, carriage return, newline, `b` the
newline-terminated chunks without their newline are the one message `a`,
carriage return; the reader publishes the two messages `a` and `b`. -/
theorem reader_drops_cr_and_keeps_last :
    publishedLines [[97, CR, NL, 98]] newGotailerServer = some [[97], [98]] ∧
    specChunks [] [[97, CR, NL, 98]].flatten = [[97, CR]] ∧
    publishedLines [[97, CR, NL, 98]] newGotailerServer ≠
      some (specChunks [] [[97, CR, NL, 98]].flatten) := by
  have h : publishedLines [[97, CR, NL, 98]] newGotailerServer = some [[97], [98]] := by
    rw [publishedLines_eq _ _ (by simp)]
    decide
  refine ⟨h, by decide, ?_⟩
  rw [h]
  decide

/-- C5, amended: when the stream consists of lines `ls` and a last piece `last`
without newline, all shorter than 65536 bytes, and the pipe never delivers an
empty chunk, the line reader ends having published, in order, one message per
line of `ls` and, when `last` is not empty, one for `last`; each message is its
line without the newline and without one carriage return at its end. -/
theorem lineReader_publishes_lines (r : List (List Byte)) (server : gotailerServer)
    (ls : List (List Byte)) (last : List Byte)
    (hch : ∀ c ∈ r, c ≠ []) (hstream : r.flatten = joinLines ls last)
    (hls : ∀ l ∈ ls, NL ∉ l ∧ l.length < MaxScanTokenSize)
    (hlast : NL ∉ last ∧ last.length < MaxScanTokenSize) :
    publishedLines r server =
      some (ls.map dropCR ++ if last = [] then [] else [dropCR last]) := by
  rw [publishedLines_eq r server hch, hstream, tokensFrom_joinLines _ ls _ hls,
    tokensFrom_last _ last hlast.1]
  simp only [List.nil_append, hlast.2, if_true]

/-- Instance of C5 amended: three chunks that cut the lines in other places
than the newlines do. -/
theorem lineReader_publishes_lines_witness :
    publishedLines [[97, CR, NL, 98], [99], [NL, 100]] newGotailerServer =
      some ([[97, CR], [98, 99]].map dropCR ++ if [(100 : Byte)] = [] then [] else [dropCR [100]]) :=
  lineReader_publishes_lines [[97, CR, NL, 98], [99], [NL, 100]] newGotailerServer
    [[97, CR], [98, 99]] [100] (by simp) (by decide) (by decide) (by decide)

/-! ## Properties of `run` -/

/-- C9 as stated fails: when the child cannot be launched, `run` returns the
launch error after `net.Listen` has been called and has succeeded. -/
theorem launch_failure_after_listen :
    (run launchFails).2 =
      some "error starting command: fork/exec ./missing: no such file or directory" ∧
    Event.netListen ∈ (run launchFails).1 := by
  decide

/-- C9, amended: when creating the stdout or the stderr pipe fails, `run`
returns that error and `net.Listen` has not been called; when both pipes and
the listening socket are created and launching the child fails, `run` returns
the launch error after `net.Listen` has been called, and the goroutine that
serves the listener has not been started. -/
theorem startup_failure (env : Env) (e : String) :
    (env.stdoutPipe = some e →
      (run env).2 = some ("error creating stdout pipe: " ++ e) ∧
      Event.netListen ∉ (run env).1) ∧
    (env.stdoutPipe = none → env.stderrPipe = some e →
      (run env).2 = some ("error creating stderr pipe: " ++ e) ∧
      Event.netListen ∉ (run env).1) ∧
    (env.stdoutPipe = none → env.stderrPipe = none → env.listen = none →
      env.start = some e →
      (run env).2 = some ("error starting command: " ++ e) ∧
      Event.netListen ∈ (run env).1 ∧ Event.goServe ∉ (run env).1) := by
  refine ⟨fun h1 => ?_, fun h1 h2 => ?_, fun h1 h2 h3 h4 => ?_⟩
  · simp [run, h1]
  · simp [run, h1, h2]
  · simp [run, h1, h2, h3, h4]

/-- Instances of C9 amended: a run in which the stderr pipe fails and a run in
which the launch fails. -/
theorem startup_failure_witness :
    ((run pipeFails).2 = some ("error creating stderr pipe: " ++ "too many open files") ∧
      Event.netListen ∉ (run pipeFails).1) ∧
    ((run launchFails).2 =
        some ("error starting command: " ++ "fork/exec ./missing: no such file or directory") ∧
      Event.netListen ∈ (run launchFails).1 ∧ Event.goServe ∉ (run launchFails).1) :=
  ⟨(startup_failure pipeFails "too many open files").2.1 rfl rfl,
    (startup_failure launchFails "fork/exec ./missing: no such file or directory").2.2
      rfl rfl rfl rfl⟩

end Gotailer
